import Mathlib

/-!
Verification development for the `kmp-lib` text-matching library.

The development shallowly embeds the two cores of the library:

* the KMP literal-search core (`include/kmp/detail/failure.hpp`,
  `include/kmp/search.hpp`, `include/kmp/detail/simd/sse42.hpp`):
  failure-function construction, the scalar KMP loop, the generator-based
  `search_all`, and the SSE4.2 first-byte-scan search kernel; and
* the DFA regex core (`include/kmp/detail/dfa.hpp`): character classes,
  Thompson NFA construction by recursive descent, epsilon closure, subset
  construction with the state cap, and the two matchers.

Texts and patterns are embedded as `List Char` (byte strings with byte
equality); sizes are `Nat`.  C++ `size_type` wrap-around arithmetic such as
`i - m + 1` (evaluated only when `i + 1 ≥ m`) is rendered as the equal
natural-number expression `i + 1 - m`.  While-loops whose termination rests
on data invariants (the failure-function fallback loop, the worklists) take
an explicit fuel argument; each use supplies fuel that provably dominates
the loop's iteration count, and the lemmas below discharge the corresponding
side conditions.
-/

set_option maxHeartbeats 1000000

namespace KmpLib

/-- Default character used for out-of-range `getD` reads (never hit on the
in-range accesses performed by the embedded code). -/
def dChar : Char := 'A'

/-! ### Failure function (`kmp::detail::compute_failure`, failure.hpp 40-71) -/

/-- The fallback while-loop shared by `compute_failure`, the scalar KMP loop
and `search_all`: `while (k > 0 && c != p[k]) k = f[k-1];`.  The fuel
argument dominates the iteration count: every iteration replaces `k` by
`f[k-1] ≤ k - 1` (a failure-table invariant proved below), so fuel `k`
suffices, and when fuel runs out `k = 0` holds and the source loop would
stop as well. -/
def fallback (p : List Char) (f : List Nat) (c : Char) : Nat → Nat → Nat
  | 0, k => k
  | fuel + 1, k =>
    if 0 < k ∧ c ≠ p.getD k dChar then fallback p f c fuel (f.getD (k - 1) 0)
    else k

/-- The fallback loop followed by the match-extension step shared verbatim
by `compute_failure`, `kmp_search_scalar` and `search_all`:
`while (k > 0 && c != p[k]) k = f[k-1]; if (c == p[k]) ++k;`. -/
def fallbackExtend (p : List Char) (f : List Nat) (c : Char) (k : Nat) : Nat :=
  if c = p.getD (fallback p f c k k) dChar then fallback p f c k k + 1
  else fallback p f c k k

/-- Loop body of `compute_failure` for `i = 1 .. m-1`: fall back, extend on a
match, record `f[i] = k`.  The table is built by appending, so `f.length = i`
at entry. -/
def computeFailureGo (p : List Char) (f : List Nat) (k i : Nat) : Nat → List Nat
  | 0 => f
  | rem + 1 =>
    computeFailureGo p (f ++ [fallbackExtend p f (p.getD i dChar) k])
      (fallbackExtend p f (p.getD i dChar) k) (i + 1) rem

/-- `kmp::detail::compute_failure` (failure.hpp 40-71): empty table for the
empty pattern, otherwise `f[0] = 0` and the loop above. -/
def computeFailure (p : List Char) : List Nat :=
  if p.length = 0 then [] else computeFailureGo p [0] 0 1 (p.length - 1)

/-! ### Scalar searches (`search.hpp`) -/

/-- Loop body of `kmp::search_all` (search.hpp 240-253).  On a full match at
text index `i` it yields `i - m + 1` (unsigned arithmetic; equals
`i + 1 - m` since `m ≤ i + 1` there) and resets `j` to `f[m-1]` so that
overlapping matches are found. -/
def searchAllGo (t p : List Char) (f : List Nat) (i j : Nat) : Nat → List Nat
  | 0 => []
  | rem + 1 =>
    if fallbackExtend p f (t.getD i dChar) j = p.length then
      (i + 1 - p.length) ::
        searchAllGo t p f (i + 1) (f.getD (p.length - 1) 0) rem
    else searchAllGo t p f (i + 1) (fallbackExtend p f (t.getD i dChar) j) rem

/-- `kmp::search_all` (search.hpp 226-254): no output for an empty pattern or
a text shorter than the pattern; otherwise the KMP loop over all text
positions.  The generator is embedded as the list of yielded offsets. -/
def search_all (t p : List Char) : List Nat :=
  if p.length = 0 ∨ t.length < p.length then []
  else searchAllGo t p (computeFailure p) 0 0 t.length

/-- Loop body of `kmp::detail::kmp_search_scalar` (search.hpp 80-94): same
automaton steps, returning the start position `i - m + 1` of the first match,
or `t.length` (the `text_last` iterator) when the text is exhausted. -/
def kmpScalarGo (t p : List Char) (f : List Nat) (i j : Nat) : Nat → Nat
  | 0 => t.length
  | rem + 1 =>
    if fallbackExtend p f (t.getD i dChar) j = p.length then i + 1 - p.length
    else kmpScalarGo t p f (i + 1) (fallbackExtend p f (t.getD i dChar) j) rem

/-- `kmp::detail::kmp_search_scalar` (search.hpp 65-97).  Iterators are
embedded as indices into the text: `text_first ↦ 0`, `text_last ↦ t.length`.
An empty pattern returns `text_first`. -/
def kmp_search_scalar (t p : List Char) (f : List Nat) : Nat :=
  if p.length = 0 then 0 else kmpScalarGo t p f 0 0 t.length

/-! ### SSE4.2 kernel (`detail/simd/sse42.hpp`) -/

/-- Denotation of `find_first_char_sse42` (sse42.hpp 25-68): index of the
first occurrence of `ch` in `l`, or `none`.  The 16-byte vector loop returns
the count-trailing-zeros of the first non-zero equality mask — the lowest
matching index of the chunk — and the scalar drain scans the remainder in
order, so the function returns the first matching index overall. -/
def findFirstChar : List Char → Char → Option Nat
  | [], _ => none
  | c :: rest, ch =>
    if c = ch then some 0 else (findFirstChar rest ch).map (· + 1)

/-- Candidate verification loop of `kmp_search_sse42` (sse42.hpp 106-109):
starting from `j`, count how far `text[c+j] = pattern[j]` extends, stopping
at the pattern length. -/
def verifyFrom (t p : List Char) (c : Nat) : Nat → Nat → Nat
  | j, 0 => j
  | j, rem + 1 =>
    if t.getD (c + j) dChar = p.getD j dChar then verifyFrom t p c (j + 1) rem
    else j

/-- Outcome of one iteration of the `kmp_search_sse42` scan loop. -/
inductive SseStep where
  | noCand : SseStep
  | found : Nat → SseStep
  | failCand : Nat → Nat → Nat → SseStep
deriving DecidableEq

/-- The `find_first_char_sse42` call of the scan loop (sse42.hpp 98-99):
scan the window `[ptr, text_end)` of length `remaining = text_end - text_ptr`
for the pattern's first byte. -/
def sseWindow (t p : List Char) (ptr : Nat) : Option Nat :=
  findFirstChar ((t.drop ptr).take (t.length - p.length + 1 - ptr)) (p.getD 0 dChar)

/-- One iteration of the `kmp_search_sse42` while-loop body (sse42.hpp
96-121) at scan cursor `ptr`: SIMD-scan `[ptr, limit)` for the pattern's
first byte; on a candidate `c`, verify from `j = 1`.  A full verification
returns `found c`; a failed one returns `failCand c k (c+1)` where `k` is the
matched length.  Note on lines 116-118 of the source: after a failed
verification the code runs the failure-table fallback loop on the local `j`,
but `j` is dead afterwards (it is re-initialised to 1 at the next candidate)
and the cursor is set to `match + 1` unconditionally, so the loop has no
observable effect and the next scan always starts at `c + 1`. -/
def sse42Step (t p : List Char) (ptr : Nat) : SseStep :=
  match sseWindow t p ptr with
  | none => .noCand
  | some d =>
    if verifyFrom t p (ptr + d) 1 (p.length - 1) = p.length then .found (ptr + d)
    else .failCand (ptr + d) (verifyFrom t p (ptr + d) 1 (p.length - 1)) (ptr + d + 1)

/-- The `kmp_search_sse42` while-loop (sse42.hpp 96-121).  Each iteration
moves the cursor strictly forward and the cursor stays below
`limit ≤ t.length + 1`, so fuel `t.length + 1` dominates the iteration
count. -/
def sse42Go (t p : List Char) : Nat → Nat → Option Nat
  | 0, _ => none
  | fuel + 1, ptr =>
    if ptr < t.length - p.length + 1 then
      match sse42Step t p ptr with
      | .noCand => none
      | .found c => some c
      | .failCand _ _ next => sse42Go t p fuel next
    else none

/-- `kmp::detail::simd::kmp_search_sse42` (sse42.hpp 77-124).  The failure
table parameter is received like in the source; as explained at `sse42Step`
it does not influence the result.  A null pointer result is `none`; a
pointer result is the offset from `text`. -/
def kmp_search_sse42 (t p : List Char) (_f : List Nat) : Option Nat :=
  if p.length = 0 then some 0
  else if t.length < p.length then none
  else sse42Go t p (t.length + 1) 0

/-! ### Dispatch and the public position API (`search.hpp` 118-212, 295-300) -/

/-- `kmp::search` (search.hpp 118-183) with the runtime CPU dispatch made
explicit: `simd = true` models the run taking the SSE4.2 kernel, `simd =
false` the scalar fallback.  The result is the match position, with
`t.length` standing for the `text_last` iterator. -/
def kmpSearchWith (simd : Bool) (t p : List Char) : Nat :=
  if p.length = 0 then 0
  else if t.length < p.length then t.length
  else if simd then (kmp_search_sse42 t p (computeFailure p)).getD t.length
  else kmp_search_scalar t p (computeFailure p)

/-- `kmp::search_pos` (search.hpp 203-212): `none` exactly when the iterator
returned by `search` equals `text.end()`, i.e. when the position equals
`t.length`. -/
def search_pos (simd : Bool) (t p : List Char) : Option Nat :=
  let r := kmpSearchWith simd t p
  if r = t.length then none else some r

/-- `kmp::contains` (search.hpp 295-300). -/
def contains (simd : Bool) (t p : List Char) : Bool :=
  (search_pos simd t p).isSome

/-! ### Occurrence specification -/

/-- `p` occurs in `t` at offset `o`: the claim's `o + |P| ≤ |T|` and
`T[o..o+|P|] = P`. -/
def OccursAt (t p : List Char) (o : Nat) : Prop :=
  o + p.length ≤ t.length ∧ (t.drop o).take p.length = p

instance (t p : List Char) (o : Nat) : Decidable (OccursAt t p o) := by
  unfold OccursAt; infer_instance

/-! ### List toolkit for the suffix reasoning -/

/-- Among suffixes of a common list, the shorter is a suffix of the longer. -/
theorem suffix_of_suffix_length_le {α : Type} {l₁ l₂ l₃ : List α}
    (h1 : l₁ <:+ l₃) (h2 : l₂ <:+ l₃) (h : l₁.length ≤ l₂.length) : l₁ <:+ l₂ := by
  rw [← List.reverse_prefix] at h1 h2 ⊢
  exact List.prefix_of_prefix_length_le h1 h2 (by simpa using h)

/-- Taking one more element appends the element at index `k`. -/
theorem take_succ_eq (p : List Char) (k : Nat) (h : k < p.length) :
    p.take (k + 1) = p.take k ++ [p.getD k dChar] := by
  rw [List.take_succ]
  simp [List.getD, List.getElem?_eq_getElem h]

/-- Appending single elements respects the suffix order componentwise. -/
theorem concat_suffix_concat {α : Type} (a b : List α) (x y : α) :
    (a ++ [x] <:+ b ++ [y]) ↔ (x = y ∧ a <:+ b) := by
  rw [← List.reverse_prefix]
  simp only [List.reverse_append, List.reverse_cons, List.reverse_nil, List.nil_append,
    List.cons_append, List.cons_prefix_cons, ← List.reverse_prefix]

/-- Key stepping equivalence: a pattern slice one longer is a suffix of the
extended context iff the shorter slice was a suffix and the next pattern
character matches the appended one. -/
theorem take_succ_suffix_iff (p x : List Char) (c : Char) (k : Nat) (hk : k < p.length) :
    p.take (k + 1) <:+ x ++ [c] ↔ (p.take k <:+ x ∧ p.getD k dChar = c) := by
  rw [take_succ_eq p k hk, concat_suffix_concat]
  tauto

theorem length_take_le_take (p : List Char) {j k : Nat} (h : j ≤ k) :
    (p.take j).length ≤ (p.take k).length := by
  simp only [List.length_take]; omega

theorem getD_append_lt {l l' : List Nat} {i : Nat} (h : i < l.length) :
    (l ++ l').getD i 0 = l.getD i 0 := by
  simp [List.getD, List.getElem?_append_left h]

theorem getD_append_len (l : List Nat) (x : Nat) : (l ++ [x]).getD l.length 0 = x := by
  simp [List.getD, List.getElem?_append_right (le_refl _)]

/-! ### Failure-function specification and correctness (claim C2) -/

/-- `k` is the length of the longest slice of `p` that is both a proper
head-slice and a suffix of `p[0..=j]`: membership plus maximality. -/
def IsMaxPS (p : List Char) (j k : Nat) : Prop :=
  (k ≤ j ∧ p.take k <:+ p.take (j + 1)) ∧
  ∀ k', k' ≤ j → p.take k' <:+ p.take (j + 1) → k' ≤ k

/-- The failure-table invariant for the first `n` entries. -/
def TableGood (p : List Char) (f : List Nat) (n : Nat) : Prop :=
  ∀ j, j < n → IsMaxPS p j (f.getD j 0)

/-- Soundness of the fallback loop: the result does not grow, the
corresponding pattern slice is a suffix of the starting slice, and the loop
stops only at `0` or at a position whose pattern character matches `c`. -/
theorem fallback_sound (p : List Char) (f : List Nat) (c : Char) (n : Nat)
    (hTG : TableGood p f n) :
    ∀ fuel k, k ≤ fuel → k ≤ n →
      fallback p f c fuel k ≤ k ∧
      p.take (fallback p f c fuel k) <:+ p.take k ∧
      (fallback p f c fuel k = 0 ∨ c = p.getD (fallback p f c fuel k) dChar) := by
  intro fuel
  induction fuel with
  | zero =>
    intro k hk _
    have hk0 : k = 0 := by omega
    subst hk0
    simp [fallback]
  | succ fuel ih =>
    intro k hk hn
    simp only [fallback]
    split
    case isTrue hcond =>
      obtain ⟨hk0, _⟩ := hcond
      obtain ⟨⟨hle, hsuf⟩, -⟩ := hTG (k - 1) (by omega)
      have hk1 : k - 1 + 1 = k := by omega
      rw [hk1] at hsuf
      obtain ⟨ih1, ih2, ih3⟩ := ih (f.getD (k - 1) 0) (by omega) (by omega)
      exact ⟨by omega, ih2.trans hsuf, ih3⟩
    case isFalse hcond =>
      refine ⟨le_refl _, List.suffix_refl _, ?_⟩
      by_cases h0 : k = 0
      · exact Or.inl h0
      · right
        by_contra hne
        exact hcond ⟨by omega, hne⟩

/-- Completeness of the fallback loop: any candidate `j` below `k` whose
slice is a suffix of the starting slice and whose next character is `c`
stays below the loop's result. -/
theorem fallback_ge (p : List Char) (f : List Nat) (c : Char) (n : Nat)
    (hTG : TableGood p f n) :
    ∀ fuel k j, k ≤ fuel → k ≤ n → j ≤ k → p.take j <:+ p.take k →
      c = p.getD j dChar → j ≤ fallback p f c fuel k := by
  intro fuel
  induction fuel with
  | zero =>
    intro k j hk _ hj _ _
    simp only [fallback]
    omega
  | succ fuel ih =>
    intro k j hk hn hj hsuf hc
    simp only [fallback]
    split
    case isTrue hcond =>
      obtain ⟨hk0, hne⟩ := hcond
      have hjk : j < k := by
        by_contra hlt
        have hjeq : j = k := by omega
        subst hjeq
        exact hne hc
      obtain ⟨⟨hle, hmem⟩, hmax⟩ := hTG (k - 1) (by omega)
      have hk1 : k - 1 + 1 = k := by omega
      rw [hk1] at hmem hmax
      have hjf : j ≤ f.getD (k - 1) 0 := hmax j (by omega) hsuf
      refine ih (f.getD (k - 1) 0) j (by omega) (by omega) hjf ?_ hc
      exact suffix_of_suffix_length_le hsuf hmem (length_take_le_take p hjf)
    case isFalse hcond => exact hj

/-- One automaton step preserves maximality: from the maximal border `k` of
`p` against context `x` (maximal among candidates below `b`), falling back
and extending on a match yields the maximal border against `x ++ [c]`. -/
theorem step_max (p : List Char) (f : List Nat) (x : List Char) (c : Char)
    (n b k : Nat) (hTG : TableGood p f n)
    (hbp : b ≤ p.length) (hkn : k ≤ n) (hkm : k < p.length)
    (hmem : p.take k <:+ x)
    (hmax : ∀ k', k' < b → p.take k' <:+ x → k' ≤ k) :
    (fallbackExtend p f c k ≤ k + 1 ∧ p.take (fallbackExtend p f c k) <:+ x ++ [c]) ∧
    ∀ k', k' ≤ b → p.take k' <:+ x ++ [c] → k' ≤ fallbackExtend p f c k := by
  obtain ⟨hs1, hs2, hs3⟩ := fallback_sound p f c n hTG k k (le_refl _) hkn
  constructor
  · constructor
    · unfold fallbackExtend; split <;> omega
    · unfold fallbackExtend
      split
      case isTrue hctrue =>
        rw [take_succ_suffix_iff p x c _ (by omega)]
        exact ⟨hs2.trans hmem, hctrue.symm⟩
      case isFalse hcf =>
        have hk10 : fallback p f c k k = 0 := by
          rcases hs3 with h0 | hcc
          · exact h0
          · exact absurd hcc hcf
        rw [hk10]
        simp
  · intro k' hk'b hk'suf
    match k', hk'suf with
    | 0, _ => exact Nat.zero_le _
    | (j' + 1), hk'suf =>
      rw [take_succ_suffix_iff p x c j' (by omega)] at hk'suf
      obtain ⟨hj'x, hj'c⟩ := hk'suf
      have hj'k : j' ≤ k := hmax j' (by omega) hj'x
      have hj'take : p.take j' <:+ p.take k :=
        suffix_of_suffix_length_le hj'x hmem (length_take_le_take p hj'k)
      have hj'fb : j' ≤ fallback p f c k k :=
        fallback_ge p f c n hTG k k j' (le_refl _) hkn hj'k hj'take hj'c.symm
      unfold fallbackExtend
      split
      case isTrue => omega
      case isFalse hcf =>
        exfalso
        rcases hs3 with h0 | hcc
        · rw [h0] at hj'fb
          have hj'0 : j' = 0 := by omega
          subst hj'0
          exact hcf (by rw [h0]; exact hj'c.symm)
        · exact hcf hcc

theorem isMaxPS_zero (p : List Char) : IsMaxPS p 0 0 :=
  ⟨⟨le_refl _, by simp⟩, fun k' hk' _ => by omega⟩

/-- Invariant proof for the `compute_failure` loop: a table that is correct
for the first `i` positions, with `k` the maximal border of position `i-1`,
is extended to a table correct for every position. -/
theorem computeFailureGo_good (p : List Char) : ∀ rem f k i,
    rem + i = p.length → 1 ≤ i → f.length = i → TableGood p f i → k = f.getD (i - 1) 0 →
    (computeFailureGo p f k i rem).length = p.length ∧
    (∀ j, j < i → (computeFailureGo p f k i rem).getD j 0 = f.getD j 0) ∧
    TableGood p (computeFailureGo p f k i rem) p.length := by
  intro rem
  induction rem with
  | zero =>
    intro f k i hrem h1 hfl hTG hk
    have hie : i = p.length := by omega
    simp only [computeFailureGo]
    exact ⟨by omega, by simp, hie ▸ hTG⟩
  | succ rem ih =>
    intro f k i hrem h1 hfl hTG hk
    have h : i < p.length := by omega
    subst hk
    obtain ⟨⟨hk1, hk2⟩, hk3⟩ := hTG (i - 1) (by omega)
    have him1 : i - 1 + 1 = i := by omega
    rw [him1] at hk2 hk3
    have hstep := step_max p f (p.take i) (p.getD i dChar) i i (f.getD (i - 1) 0) hTG
      (by omega) (by omega) (by omega) hk2 (fun k' hk' hs => hk3 k' (by omega) hs)
    rw [← take_succ_eq p i h] at hstep
    set fe := fallbackExtend p f (p.getD i dChar) (f.getD (i - 1) 0) with hfe
    have hMaxI : IsMaxPS p i fe :=
      ⟨⟨by omega, hstep.1.2⟩, fun k' hk' hs => hstep.2 k' hk' hs⟩
    have hTG' : TableGood p (f ++ [fe]) (i + 1) := by
      intro j hj
      rcases Nat.lt_or_ge j i with hji | hji
      · rw [getD_append_lt (by omega)]
        exact hTG j hji
      · have hje : j = i := by omega
        subst hje
        have hgd : (f ++ [fe]).getD j 0 = fe := hfl ▸ getD_append_len f fe
        rw [hgd]
        exact hMaxI
    have hkeq : fe = (f ++ [fe]).getD (i + 1 - 1) 0 := by
      have : i + 1 - 1 = f.length := by omega
      rw [this, getD_append_len]
    obtain ⟨ihL, ihP, ihT⟩ := ih (f ++ [fe]) fe (i + 1) (by omega) (by omega)
      (by simp [hfl]) hTG' hkeq
    simp only [computeFailureGo]
    refine ⟨ihL, ?_, ihT⟩
    intro j hj
    rw [ihP j (by omega), getD_append_lt (by omega)]

/-- The full failure-table invariant for `compute_failure`. -/
theorem computeFailure_good (p : List Char) :
    TableGood p (computeFailure p) p.length := by
  unfold computeFailure
  split
  case isTrue h => intro j hj; omega
  case isFalse h =>
    have hTG1 : TableGood p [0] 1 := by
      intro j hj
      have hj0 : j = 0 := by omega
      subst hj0
      exact isMaxPS_zero p
    exact (computeFailureGo_good p (p.length - 1) [0] 0 1 (by omega) (le_refl _) rfl
      hTG1 rfl).2.2

theorem computeFailure_length (p : List Char) :
    (computeFailure p).length = p.length := by
  unfold computeFailure
  split
  case isTrue h => simp [h]
  case isFalse h =>
    have hTG1 : TableGood p [0] 1 := by
      intro j hj
      have hj0 : j = 0 := by omega
      subst hj0
      exact isMaxPS_zero p
    exact (computeFailureGo_good p (p.length - 1) [0] 0 1 (by omega) (le_refl _) rfl
      hTG1 rfl).1

theorem computeFailure_zero (p : List Char) : (computeFailure p).getD 0 0 = 0 := by
  unfold computeFailure
  split
  case isTrue h => rfl
  case isFalse h =>
    have hTG1 : TableGood p [0] 1 := by
      intro j hj
      have hj0 : j = 0 := by omega
      subst hj0
      exact isMaxPS_zero p
    have := (computeFailureGo_good p (p.length - 1) [0] 0 1 (by omega) (le_refl _) rfl
      hTG1 rfl).2.1 0 (by omega)
    simpa using this

/-! ### The KMP search invariant (claims C1, C3) -/

/-- Loop invariant of the KMP matchers at entry of iteration `i`: `j` is the
maximal length below `|p|` of a head-slice of `p` that is a suffix of the
text processed so far. -/
def MaxBorder (t p : List Char) (i j : Nat) : Prop :=
  (j < p.length ∧ p.take j <:+ t.take i) ∧
  ∀ k, k < p.length → p.take k <:+ t.take i → k ≤ j

theorem maxBorder_init (t p : List Char) (hm : 0 < p.length) : MaxBorder t p 0 0 := by
  refine ⟨⟨hm, by simp⟩, ?_⟩
  intro k hk hs
  simp only [List.take_zero] at hs
  have h0 : p.take k = [] := List.suffix_nil.mp hs
  have := congrArg List.length h0
  simp only [List.length_take, List.length_nil] at this
  omega

/-- One iteration of the matcher loop: from the invariant, the updated value
`fallbackExtend p f t[i] j` is the maximal length at most `|p|` of a
head-slice of `p` that is a suffix of `t.take (i+1)`. -/
theorem searchStepLemma (t p : List Char) (f : List Nat) (i j : Nat)
    (hTG : TableGood p f p.length)
    (hi : i < t.length) (hinv : MaxBorder t p i j) :
    (fallbackExtend p f (t.getD i dChar) j ≤ p.length ∧
      p.take (fallbackExtend p f (t.getD i dChar) j) <:+ t.take (i + 1)) ∧
    ∀ k, k ≤ p.length → p.take k <:+ t.take (i + 1) →
      k ≤ fallbackExtend p f (t.getD i dChar) j := by
  obtain ⟨⟨hjm, hmem⟩, hmax⟩ := hinv
  have hstep := step_max p f (t.take i) (t.getD i dChar) p.length p.length j hTG
    (le_refl _) (by omega) hjm hmem hmax
  rw [← take_succ_eq t i hi] at hstep
  exact ⟨⟨by omega, hstep.1.2⟩, hstep.2⟩

/-- A full-match step: the updated value hits `|p|` exactly when the whole
pattern is a suffix of the processed text. -/
theorem searchStep_match_iff (t p : List Char) (f : List Nat) (i j : Nat)
    (hTG : TableGood p f p.length)
    (hi : i < t.length) (hinv : MaxBorder t p i j) :
    (fallbackExtend p f (t.getD i dChar) j = p.length ↔ p <:+ t.take (i + 1)) := by
  obtain ⟨⟨hle, hmem⟩, hmax⟩ := searchStepLemma t p f i j hTG hi hinv
  constructor
  · intro h
    rw [h] at hmem
    rwa [List.take_length] at hmem
  · intro h
    have := hmax p.length (le_refl _) (by rwa [List.take_length])
    omega

/-- Invariant update on a non-matching step. -/
theorem maxBorder_step (t p : List Char) (f : List Nat) (i j : Nat)
    (hTG : TableGood p f p.length) (hi : i < t.length) (hinv : MaxBorder t p i j)
    (hne : fallbackExtend p f (t.getD i dChar) j ≠ p.length) :
    MaxBorder t p (i + 1) (fallbackExtend p f (t.getD i dChar) j) := by
  obtain ⟨⟨hle, hmem⟩, hmax⟩ := searchStepLemma t p f i j hTG hi hinv
  exact ⟨⟨by omega, hmem⟩, fun k hk hs => hmax k (by omega) hs⟩

/-- Invariant update after a full match: the loop restarts from `f[m-1]`. -/
theorem maxBorder_reset (t p : List Char) (f : List Nat) (i : Nat)
    (hm : 0 < p.length) (hTG : TableGood p f p.length)
    (hp : p <:+ t.take (i + 1)) :
    MaxBorder t p (i + 1) (f.getD (p.length - 1) 0) := by
  obtain ⟨⟨hle, hmem⟩, hmax⟩ := hTG (p.length - 1) (by omega)
  have hm1 : p.length - 1 + 1 = p.length := by omega
  rw [hm1] at hmem hmax
  rw [List.take_length] at hmem hmax
  constructor
  · exact ⟨by omega, hmem.trans hp⟩
  · intro k hk hs
    have hlen : (p.take k).length ≤ p.length := by
      simp only [List.length_take]; omega
    exact hmax k (by omega) (suffix_of_suffix_length_le hs hp hlen)

/-- The `search_all` loop yields, in order, `x + 1 - m` for exactly the text
positions `x ≥ i` at which a full match ends. -/
theorem searchAllGo_eq (t p : List Char) (f : List Nat)
    (hTG : TableGood p f p.length) (hm : 0 < p.length) :
    ∀ rem i j, rem + i = t.length → MaxBorder t p i j →
    searchAllGo t p f i j rem =
      ((List.range' i (t.length - i)).filter
          (fun x => decide (p <:+ t.take (x + 1)))).map
        (fun x => x + 1 - p.length) := by
  intro rem
  induction rem with
  | zero =>
    intro i j hrem _
    have hrange : t.length - i = 0 := by omega
    simp only [searchAllGo]
    rw [hrange]
    simp
  | succ rem ih =>
    intro i j hrem hinv
    have h : i < t.length := by omega
    have hiff := searchStep_match_iff t p f i j hTG h hinv
    have hrange : t.length - i = (t.length - (i + 1)) + 1 := by omega
    simp only [searchAllGo]
    by_cases hfe : fallbackExtend p f (t.getD i dChar) j = p.length
    · have hsuf : p <:+ t.take (i + 1) := hiff.mp hfe
      rw [if_pos hfe, hrange, List.range'_succ,
        List.filter_cons_of_pos (by simpa using hsuf), List.map_cons]
      rw [ih (i + 1) (f.getD (p.length - 1) 0) (by omega)
        (maxBorder_reset t p f i hm hTG hsuf)]
    · have hnsuf : ¬ p <:+ t.take (i + 1) := fun hc => hfe (hiff.mpr hc)
      rw [if_neg hfe, hrange, List.range'_succ,
        List.filter_cons_of_neg (by simpa using hnsuf)]
      exact ih (i + 1) _ (by omega) (maxBorder_step t p f i j hTG h hinv hfe)

/-! ### Occurrences versus suffixes of text slices -/

/-- A full match ending at text index `x` is the same as an occurrence
starting at `x + 1 - m`. -/
theorem suffix_take_iff_occursAt (t p : List Char) (hm : 0 < p.length)
    (x : Nat) (hx : x < t.length) :
    (p <:+ t.take (x + 1)) ↔
      (p.length ≤ x + 1 ∧ OccursAt t p (x + 1 - p.length)) := by
  have hlen : (t.take (x + 1)).length = x + 1 := by
    simp only [List.length_take]; omega
  constructor
  · intro h
    have hpl : p.length ≤ x + 1 := by
      have := h.length_le
      omega
    refine ⟨hpl, ?_, ?_⟩
    · omega
    · have hdrop := List.suffix_iff_eq_drop.mp h
      rw [hlen] at hdrop
      rw [List.drop_take] at hdrop
      have harith : x + 1 - (x + 1 - p.length) = p.length := by omega
      rw [harith] at hdrop
      exact hdrop.symm
  · rintro ⟨hpl, _, hslice⟩
    set o2 := x + 1 - p.length with ho2
    have harith : x + 1 = o2 + p.length := by omega
    rw [harith, List.take_add, hslice]
    exact List.suffix_append _ _

/-- Pointwise characterisation of an occurrence. -/
theorem occursAt_iff_getD (t p : List Char) (o : Nat) :
    OccursAt t p o ↔
      (o + p.length ≤ t.length ∧
        ∀ e, e < p.length → t.getD (o + e) dChar = p.getD e dChar) := by
  constructor
  · rintro ⟨h1, h2⟩
    refine ⟨h1, ?_⟩
    intro e he
    have he2 : e < ((t.drop o).take p.length).length := by
      simp only [List.length_take, List.length_drop]; omega
    have he3 : o + e < t.length := by omega
    rw [List.getD_eq_getElem t dChar he3, List.getD_eq_getElem p dChar (h2 ▸ he2)]
    have hstep : ((t.drop o).take p.length)[e] = t[o + e] := by
      rw [List.getElem_take, List.getElem_drop]
    rw [← hstep]
    simp only [h2]
  · rintro ⟨h1, h2⟩
    refine ⟨h1, ?_⟩
    have hlen : ((t.drop o).take p.length).length = p.length := by
      simp only [List.length_take, List.length_drop]; omega
    refine List.ext_getElem hlen ?_
    intro i hi1 hi2
    have hi3 : o + i < t.length := by omega
    have := h2 i hi2
    rw [List.getD_eq_getElem t dChar hi3, List.getD_eq_getElem p dChar hi2] at this
    rw [List.getElem_take, List.getElem_drop]
    exact this

/-! ### Claim C1: `search_all` is sound, complete and strictly increasing -/

theorem search_all_mem (t p : List Char) (hp : p ≠ []) (o : Nat) :
    o ∈ search_all t p ↔ OccursAt t p o := by
  have hm : 0 < p.length := List.length_pos.mpr hp
  unfold search_all
  split
  case isTrue h =>
    rcases h with h | h
    · omega
    · simp only [List.not_mem_nil, false_iff]
      rintro ⟨ho, -⟩
      omega
  case isFalse h =>
    push_neg at h
    rw [searchAllGo_eq t p (computeFailure p) (computeFailure_good p) hm t.length 0 0
      (by omega) (maxBorder_init t p hm)]
    simp only [List.mem_map, List.mem_filter, List.mem_range'_1, Nat.sub_zero,
      decide_eq_true_eq]
    constructor
    · rintro ⟨x, ⟨⟨-, hx⟩, hsuf⟩, rfl⟩
      have hx' : x < t.length := by omega
      exact ((suffix_take_iff_occursAt t p hm x hx').mp hsuf).2
    · intro hocc
      obtain ⟨h1, h2⟩ := hocc
      refine ⟨o + p.length - 1, ⟨⟨by omega, by omega⟩, ?_⟩, by omega⟩
      have hx' : o + p.length - 1 < t.length := by omega
      refine (suffix_take_iff_occursAt t p hm _ hx').mpr ⟨by omega, ?_⟩
      have harith : o + p.length - 1 + 1 - p.length = o := by omega
      rw [harith]
      exact ⟨h1, h2⟩

theorem search_all_sorted (t p : List Char) (hp : p ≠ []) :
    (search_all t p).Pairwise (· < ·) := by
  have hm : 0 < p.length := List.length_pos.mpr hp
  unfold search_all
  split
  case isTrue h => simp
  case isFalse h =>
    push_neg at h
    rw [searchAllGo_eq t p (computeFailure p) (computeFailure_good p) hm t.length 0 0
      (by omega) (maxBorder_init t p hm)]
    rw [List.pairwise_map]
    have hpw : ((List.range' 0 (t.length - 0)).filter
        (fun x => decide (p <:+ t.take (x + 1)))).Pairwise (· < ·) :=
      (List.pairwise_lt_range' _ _).filter _
    have hbig : ∀ x ∈ (List.range' 0 (t.length - 0)).filter
        (fun x => decide (p <:+ t.take (x + 1))), p.length ≤ x + 1 := by
      intro x hx
      rw [List.mem_filter, decide_eq_true_eq] at hx
      have := hx.2.length_le
      simp only [List.length_take] at this
      omega
    refine List.Pairwise.imp_of_mem ?_ hpw
    intro a b ha hb hab
    have h1 := hbig a ha
    have h2 := hbig b hb
    omega

/-! ### Claim C3: the SSE4.2 kernel equals the scalar KMP search -/

/-- Specification of a first-match position result `r`, with `t.length`
encoding "no match" (the `text_last` iterator). -/
def FirstMatchSpec (t p : List Char) (r : Nat) : Prop :=
  (r = t.length ∧ ∀ o, ¬ OccursAt t p o) ∨
  (OccursAt t p r ∧ ∀ o, o < r → ¬ OccursAt t p o)

/-- Specification of an optional first-match position. -/
def FirstMatchOpt (t p : List Char) : Option Nat → Prop
  | none => ∀ o, ¬ OccursAt t p o
  | some c => OccursAt t p c ∧ ∀ o, o < c → ¬ OccursAt t p o

/-- The scalar KMP loop computes the first match position. -/
theorem kmpScalarGo_spec (t p : List Char) (f : List Nat)
    (hTG : TableGood p f p.length) (hm : 0 < p.length) :
    ∀ rem i j, rem + i = t.length → MaxBorder t p i j →
    (∀ o, o + p.length ≤ i → ¬ OccursAt t p o) →
    FirstMatchSpec t p (kmpScalarGo t p f i j rem) := by
  intro rem
  induction rem with
  | zero =>
    intro i j hrem _ hno
    simp only [kmpScalarGo]
    left
    refine ⟨rfl, ?_⟩
    intro o hocc
    have h1 := hocc.1
    exact hno o (by omega) hocc
  | succ rem ih =>
    intro i j hrem hinv hno
    have h : i < t.length := by omega
    simp only [kmpScalarGo]
    by_cases hfe : fallbackExtend p f (t.getD i dChar) j = p.length
    · have hsuf := (searchStep_match_iff t p f i j hTG h hinv).mp hfe
      rw [if_pos hfe]
      right
      obtain ⟨hle, hocc⟩ := (suffix_take_iff_occursAt t p hm i h).mp hsuf
      refine ⟨hocc, ?_⟩
      intro o ho
      exact hno o (by omega)
    · rw [if_neg hfe]
      refine ih (i + 1) _ (by omega) (maxBorder_step t p f i j hTG h hinv hfe) ?_
      intro o ho
      rcases Nat.lt_or_ge (o + p.length) (i + 1) with hlt | hge
      · exact hno o (by omega)
      · have hoe : o + p.length = i + 1 := by omega
        intro hocc
        apply hfe
        refine (searchStep_match_iff t p f i j hTG h hinv).mpr ?_
        refine (suffix_take_iff_occursAt t p hm i h).mpr ⟨by omega, ?_⟩
        have harith : i + 1 - p.length = o := by omega
        rwa [harith]

/-- Characterisation of `findFirstChar` returning no position. -/
theorem findFirstChar_none_iff (l : List Char) (ch : Char) :
    findFirstChar l ch = none ↔ ∀ e, e < l.length → l.getD e dChar ≠ ch := by
  induction l with
  | nil => simp [findFirstChar]
  | cons c rest ih =>
    by_cases hc : c = ch
    · simp only [findFirstChar, if_pos hc]
      constructor
      · intro h; simp at h
      · intro h
        exact absurd (show (c :: rest).getD 0 dChar = ch by simpa using hc)
          (h 0 (by simp))
    · simp only [findFirstChar, if_neg hc, Option.map_eq_none', ih]
      constructor
      · intro h e he
        match e with
        | 0 => simpa using hc
        | e + 1 => exact h e (by simpa using he)
      · intro h e he
        exact h (e + 1) (by simpa using he)

/-- Characterisation of `findFirstChar` returning a position. -/
theorem findFirstChar_some_iff (l : List Char) (ch : Char) (d : Nat) :
    findFirstChar l ch = some d ↔
      (d < l.length ∧ l.getD d dChar = ch ∧
        ∀ e, e < d → l.getD e dChar ≠ ch) := by
  induction l generalizing d with
  | nil => simp [findFirstChar]
  | cons c rest ih =>
    by_cases hc : c = ch
    · simp only [findFirstChar, if_pos hc]
      constructor
      · rintro h
        have hd0 : d = 0 := by simpa using h.symm
        subst hd0
        exact ⟨by simp, by simpa using hc, fun e he => by omega⟩
      · rintro ⟨hd, hgd, hlt⟩
        match d with
        | 0 => rfl
        | d + 1 =>
          exact absurd (show (c :: rest).getD 0 dChar = ch by simpa using hc)
            (hlt 0 (by omega))
    · simp only [findFirstChar, if_neg hc, Option.map_eq_some']
      constructor
      · rintro ⟨d', hd', rfl⟩
        obtain ⟨h1, h2, h3⟩ := (ih d').mp hd'
        refine ⟨by simpa using h1, by simpa using h2, ?_⟩
        intro e he
        match e with
        | 0 => simpa using hc
        | e + 1 => exact h3 e (by omega)
      · rintro ⟨hd, hgd, hlt⟩
        match d with
        | 0 => exact absurd (by simpa using hgd) hc
        | d + 1 =>
          refine ⟨d, (ih d).mpr ⟨by simpa using hd, by simpa using hgd, ?_⟩, rfl⟩
          intro e he
          exact hlt (e + 1) (by omega)

/-- Reading an element of a `drop`-`take` window of the text. -/
theorem getD_window (t : List Char) (ptr len e : Nat)
    (he : e < len) (hpe : ptr + e < t.length) :
    ((t.drop ptr).take len).getD e dChar = t.getD (ptr + e) dChar := by
  have he2 : e < ((t.drop ptr).take len).length := by
    simp only [List.length_take, List.length_drop]; omega
  rw [List.getD_eq_getElem _ dChar he2, List.getD_eq_getElem t dChar hpe]
  rw [List.getElem_take, List.getElem_drop]

/-- The verification loop reaches the pattern length iff every remaining
position matches. -/
theorem verifyFrom_eq_len_iff (t p : List Char) (c : Nat) :
    ∀ rem j, rem + j = p.length →
    (verifyFrom t p c j rem = p.length ↔
      ∀ e, j ≤ e → e < p.length → t.getD (c + e) dChar = p.getD e dChar) := by
  intro rem
  induction rem with
  | zero =>
    intro j hrem
    simp only [verifyFrom]
    constructor
    · intro _ e he1 he2
      omega
    · intro _
      omega
  | succ rem ih =>
    intro j hrem
    have h : j < p.length := by omega
    simp only [verifyFrom]
    by_cases heq : t.getD (c + j) dChar = p.getD j dChar
    · rw [if_pos heq, ih (j + 1) (by omega)]
      constructor
      · intro hall e he1 he2
        rcases Nat.lt_or_ge j e with hlt | hge
        · exact hall e (by omega) he2
        · have hej : e = j := by omega
          subst hej
          exact heq
      · intro hall e he1 he2
        exact hall e (by omega) he2
    · rw [if_neg heq]
      constructor
      · intro hj
        exact absurd hj (by omega)
      · intro hall
        exact absurd (hall j (le_refl _) h) heq

/-- Inversion: the scan step reports no candidate iff the window scan finds
no first byte. -/
theorem sse42Step_noCand_iff (t p : List Char) (ptr : Nat) :
    sse42Step t p ptr = .noCand ↔ sseWindow t p ptr = none := by
  unfold sse42Step
  cases hf : sseWindow t p ptr with
  | none => simp
  | some d =>
    simp only
    split <;> simp

/-- Inversion of a successful scan step. -/
theorem sse42Step_found_iff (t p : List Char) (ptr c : Nat) :
    sse42Step t p ptr = .found c ↔
      ∃ d, sseWindow t p ptr = some d ∧
        c = ptr + d ∧ verifyFrom t p (ptr + d) 1 (p.length - 1) = p.length := by
  unfold sse42Step
  cases hf : sseWindow t p ptr with
  | none => simp
  | some d =>
    simp only
    split
    case isTrue hk =>
      simp only [SseStep.found.injEq]
      constructor
      · rintro rfl
        exact ⟨d, rfl, rfl, hk⟩
      · rintro ⟨d', hd', rfl, -⟩
        cases hd'
        rfl
    case isFalse hk =>
      constructor
      · rintro h; cases h
      · rintro ⟨d', hd', rfl, hv⟩
        cases hd'
        exact absurd hv hk

/-- Inversion of a failed scan step: the matched length is the verification
length, and the next scan cursor is always `c + 1`. -/
theorem sse42Step_failCand (t p : List Char) (ptr c k next : Nat)
    (h : sse42Step t p ptr = .failCand c k next) :
    ∃ d, sseWindow t p ptr = some d ∧
      c = ptr + d ∧ k = verifyFrom t p c 1 (p.length - 1) ∧ k ≠ p.length ∧
      next = c + 1 := by
  unfold sse42Step at h
  cases hf : sseWindow t p ptr with
  | none => rw [hf] at h; cases h
  | some d =>
    rw [hf] at h
    simp only at h
    split at h
    case isTrue hk => cases h
    case isFalse hk =>
      cases h
      exact ⟨d, rfl, rfl, rfl, hk, rfl⟩

/-- The SSE4.2 scan loop computes the first occurrence at or after the
cursor, given that no occurrence starts before it. -/
theorem sse42Go_first (t p : List Char) (hm : 0 < p.length)
    (hmn : p.length ≤ t.length) :
    ∀ fuel ptr, t.length - p.length + 1 - ptr < fuel →
    (∀ o, o < ptr → ¬ OccursAt t p o) →
    FirstMatchOpt t p (sse42Go t p fuel ptr) := by
  intro fuel
  induction fuel with
  | zero => intro ptr hfuel _; omega
  | succ fuel ih =>
    intro ptr hfuel hno
    show FirstMatchOpt t p
      (if ptr < t.length - p.length + 1 then
        match sse42Step t p ptr with
        | .noCand => none
        | .found c => some c
        | .failCand _ _ next => sse42Go t p fuel next
      else none)
    split
    case isFalse hptr =>
      intro o hocc
      have : o + p.length ≤ t.length := hocc.1
      exact hno o (by omega) hocc
    case isTrue hptr =>
      have hlimle : t.length - p.length + 1 ≤ t.length := by omega
      have hwlen : ((t.drop ptr).take (t.length - p.length + 1 - ptr)).length
          = t.length - p.length + 1 - ptr := by
        simp only [List.length_take, List.length_drop]; omega
      cases hstep : sse42Step t p ptr with
      | noCand =>
        rw [sse42Step_noCand_iff] at hstep
        unfold sseWindow at hstep
        intro o hocc
        rcases Nat.lt_or_ge o ptr with holt | hoge
        · exact hno o holt hocc
        · have hob : o + p.length ≤ t.length := hocc.1
          have hrel : o - ptr < t.length - p.length + 1 - ptr := by omega
          have h0 := ((occursAt_iff_getD t p o).mp hocc).2 0 hm
          rw [findFirstChar_none_iff] at hstep
          apply hstep (o - ptr) (by rw [hwlen]; exact hrel)
          rw [getD_window t ptr _ _ hrel (by omega)]
          have harith : ptr + (o - ptr) = o := by omega
          rw [harith]
          simpa using h0
      | found c =>
        obtain ⟨d, hfind, rfl, hk⟩ := (sse42Step_found_iff t p ptr c).mp hstep
        unfold sseWindow at hfind
        obtain ⟨hd, hgd, hlt⟩ := (findFirstChar_some_iff _ _ _).mp hfind
        rw [hwlen] at hd
        rw [getD_window t ptr _ _ (by omega) (by omega)] at hgd
        have hnoc : ∀ o, o < ptr + d → ¬ OccursAt t p o := by
          intro o ho hocc
          rcases Nat.lt_or_ge o ptr with holt | hoge
          · exact hno o holt hocc
          · have h0 := ((occursAt_iff_getD t p o).mp hocc).2 0 hm
            apply hlt (o - ptr) (by omega)
            rw [getD_window t ptr _ _ (by omega) (by omega)]
            have harith : ptr + (o - ptr) = o := by omega
            rw [harith]
            simpa using h0
        rw [verifyFrom_eq_len_iff t p (ptr + d) (p.length - 1) 1 (by omega)] at hk
        have hocc : OccursAt t p (ptr + d) := by
          rw [occursAt_iff_getD]
          refine ⟨by omega, ?_⟩
          intro e he
          match e with
          | 0 => simpa using hgd
          | e + 1 => exact hk (e + 1) (by omega) he
        exact ⟨hocc, hnoc⟩
      | failCand c k next =>
        obtain ⟨d, hfind, rfl, hkv, hkne, rfl⟩ := sse42Step_failCand t p ptr _ _ _ hstep
        unfold sseWindow at hfind
        obtain ⟨hd, hgd, hlt⟩ := (findFirstChar_some_iff _ _ _).mp hfind
        rw [hwlen] at hd
        rw [getD_window t ptr _ _ (by omega) (by omega)] at hgd
        have hnoc : ∀ o, o < ptr + d → ¬ OccursAt t p o := by
          intro o ho hocc
          rcases Nat.lt_or_ge o ptr with holt | hoge
          · exact hno o holt hocc
          · have h0 := ((occursAt_iff_getD t p o).mp hocc).2 0 hm
            apply hlt (o - ptr) (by omega)
            rw [getD_window t ptr _ _ (by omega) (by omega)]
            have harith : ptr + (o - ptr) = o := by omega
            rw [harith]
            simpa using h0
        have hnocc : ¬ OccursAt t p (ptr + d) := by
          intro hocc
          apply hkne
          rw [hkv, verifyFrom_eq_len_iff t p (ptr + d) (p.length - 1) 1 (by omega)]
          intro e he1 he2
          exact ((occursAt_iff_getD t p (ptr + d)).mp hocc).2 e he2
        refine ih (ptr + d + 1) (by omega) ?_
        intro o ho
        rcases Nat.lt_or_ge o (ptr + d) with holt | hoge
        · exact hnoc o holt
        · have hoeq : o = ptr + d := by omega
          subst hoeq
          exact hnocc

/-- Claim C3 core: on every input the SSE4.2 kernel and the scalar KMP
search produce the same position (with `t.length` for "no match"). -/
theorem sse42_eq_scalar (t p : List Char) :
    (kmp_search_sse42 t p (computeFailure p)).getD t.length
      = kmp_search_scalar t p (computeFailure p) := by
  unfold kmp_search_sse42 kmp_search_scalar
  by_cases hm : p.length = 0
  · simp [hm]
  · have hm' : 0 < p.length := by omega
    rw [if_neg hm, if_neg hm]
    by_cases hnm : t.length < p.length
    · rw [if_pos hnm]
      have hspec := kmpScalarGo_spec t p (computeFailure p) (computeFailure_good p)
        hm' t.length 0 0 (by omega) (maxBorder_init t p hm') (fun o ho => by omega)
      rcases hspec with ⟨heq, -⟩ | ⟨⟨ho1, -⟩, -⟩
      · simp [heq]
      · omega
    · rw [if_neg hnm]
      push_neg at hnm
      have hsse := sse42Go_first t p hm' hnm (t.length + 1) 0 (by omega)
        (fun o ho => by omega)
      have hspec := kmpScalarGo_spec t p (computeFailure p) (computeFailure_good p)
        hm' t.length 0 0 (by omega) (maxBorder_init t p hm') (fun o ho => by omega)
      cases hres : sse42Go t p (t.length + 1) 0 with
      | none =>
        rw [hres] at hsse
        rcases hspec with ⟨heq, -⟩ | ⟨hocc, -⟩
        · simp [heq]
        · exact absurd hocc (hsse _)
      | some c =>
        rw [hres] at hsse
        obtain ⟨hocc, hmin⟩ := hsse
        rcases hspec with ⟨-, hnone⟩ | ⟨hocc', hmin'⟩
        · exact absurd hocc (hnone c)
        · simp only [Option.getD_some]
          rcases Nat.lt_trichotomy c (kmpScalarGo t p (computeFailure p) 0 0 t.length)
            with h | h | h
          · exact absurd hocc (hmin' c h)
          · exact h
          · exact absurd hocc' (hmin _ h)

/-- Claim C3 at the `search_pos` level: the result does not depend on the
dispatch path taken. -/
theorem search_pos_dispatch_eq (t p : List Char) (s1 s2 : Bool) :
    search_pos s1 t p = search_pos s2 t p := by
  have hk : ∀ s : Bool, kmpSearchWith s t p = kmpSearchWith false t p := by
    intro s
    cases s
    · rfl
    · unfold kmpSearchWith
      by_cases hm : p.length = 0
      · simp [hm]
      · rw [if_neg hm, if_neg hm]
        by_cases hnm : t.length < p.length
        · simp [hnm]
        · rw [if_neg hnm, if_neg hnm, if_pos rfl]
          exact sse42_eq_scalar t p
  unfold search_pos
  rw [hk s1, hk s2]

/-! ### Claim-level theorems for the literal-search core -/

/-- Claim C1: for every text `T` and non-empty pattern `P`, `search_all(T,P)`
yields exactly the occurrence offsets of `P` in `T` — each yielded `o`
satisfies `o + |P| ≤ |T|` and `T[o..o+|P|] = P`, every such offset is
yielded — and the yielded offsets are strictly increasing. -/
theorem searchAll_complete_sorted (t p : List Char) (hp : p ≠ []) :
    (∀ o, o ∈ search_all t p ↔ OccursAt t p o) ∧
    (search_all t p).Pairwise (· < ·) :=
  ⟨search_all_mem t p hp, search_all_sorted t p hp⟩

/-- Witness for C1 at `T = "aabaa"`, `P = "aa"` (overlap at offset 3). -/
theorem searchAll_complete_sorted_witness :
    (['a', 'a'] : List Char) ≠ [] ∧
    (3 ∈ search_all ['a', 'a', 'b', 'a', 'a'] ['a', 'a'] ↔
      OccursAt ['a', 'a', 'b', 'a', 'a'] ['a', 'a'] 3) ∧
    (search_all ['a', 'a', 'b', 'a', 'a'] ['a', 'a']).Pairwise (· < ·) :=
  ⟨by decide,
    (searchAll_complete_sorted ['a', 'a', 'b', 'a', 'a'] ['a', 'a'] (by decide)).1 3,
    (searchAll_complete_sorted ['a', 'a', 'b', 'a', 'a'] ['a', 'a'] (by decide)).2⟩

/-- Claim C2: `compute_failure` returns a table of the pattern's length with
`F[0] = 0`, and for `0 < i < m` the entry `F[i]` is the length of the
longest proper head-slice of `P[0..=i]` that is also a suffix of `P[0..=i]`:
`F[i] ≤ i`, `P[0..F[i]]` is a suffix of `P[0..=i]`, and no longer
head-slice of length at most `i` is such a suffix. -/
theorem computeFailure_spec (p : List Char) :
    (computeFailure p).length = p.length ∧
    (computeFailure p).getD 0 0 = 0 ∧
    ∀ i, 0 < i → i < p.length →
      ((computeFailure p).getD i 0 ≤ i ∧
        p.take ((computeFailure p).getD i 0) <:+ p.take (i + 1)) ∧
      ∀ k, k ≤ i → p.take k <:+ p.take (i + 1) →
        k ≤ (computeFailure p).getD i 0 := by
  refine ⟨computeFailure_length p, computeFailure_zero p, ?_⟩
  intro i hi0 hip
  obtain ⟨⟨h1, h2⟩, h3⟩ := computeFailure_good p i hip
  exact ⟨⟨h1, h2⟩, h3⟩

/-- Witness for C2 at the documented example pattern `"ABABAC"`, `i = 4`:
the table has length 6 and `F[4] = 3` is a maximal border length. -/
theorem computeFailure_spec_witness :
    (computeFailure ['A', 'B', 'A', 'B', 'A', 'C']).length = 6 ∧
    ((computeFailure ['A', 'B', 'A', 'B', 'A', 'C']).getD 4 0 ≤ 4 ∧
      List.take ((computeFailure ['A', 'B', 'A', 'B', 'A', 'C']).getD 4 0)
          ['A', 'B', 'A', 'B', 'A', 'C'] <:+
        List.take 5 ['A', 'B', 'A', 'B', 'A', 'C']) ∧
    3 ≤ (computeFailure ['A', 'B', 'A', 'B', 'A', 'C']).getD 4 0 :=
  ⟨(computeFailure_spec ['A', 'B', 'A', 'B', 'A', 'C']).1,
    ((computeFailure_spec ['A', 'B', 'A', 'B', 'A', 'C']).2.2 4 (by decide) (by decide)).1,
    ((computeFailure_spec ['A', 'B', 'A', 'B', 'A', 'C']).2.2 4 (by decide)
      (by decide)).2 3 (by decide) (by decide)⟩

/-- Claim C3: on every contiguous input the SSE4.2 kernel and the scalar
KMP fallback return the same match position and the same no-match outcome,
so `search_pos` does not depend on the dispatch path taken. -/
theorem sse42_scalar_paths_agree (t p : List Char) :
    (kmp_search_sse42 t p (computeFailure p)).getD t.length
        = kmp_search_scalar t p (computeFailure p) ∧
    ∀ s1 s2 : Bool, search_pos s1 t p = search_pos s2 t p :=
  ⟨sse42_eq_scalar t p, fun s1 s2 => search_pos_dispatch_eq t p s1 s2⟩

/-! ### Claim C4: the failed-candidate skip distance -/

/-- Counterexample to claim C4 as stated: with text `"abd"` and pattern
`"abc"`, the candidate at `c = 0` fails verification with matched length
`k = 2`, and the next scan begins at `c + 1 = 1`, not at
`c + max(1, k − F[k−1]) = 2` as the claim asserts. -/
theorem sse42_skip_claim_cex :
    sse42Step ['a', 'b', 'd'] ['a', 'b', 'c'] 0 = .failCand 0 2 1 ∧
    0 + max 1 (2 - (computeFailure ['a', 'b', 'c']).getD (2 - 1) 0) ≠ 1 := by
  decide

/-- Claim C4 amended: whenever a candidate `c` (located by the first-byte
scan) fails verification, the scan cursor advances by exactly 1 — the next
scan begins at `c + 1` regardless of the matched prefix length `k`, and the
loop continues from there.  The failure-table fallback computed after a
failed verification (sse42.hpp 116-118) is dead code. -/
theorem sse42_skip_is_one (t p : List Char) (fuel ptr c k next : Nat)
    (h : sse42Step t p ptr = .failCand c k next) :
    next = c + 1 ∧
    (ptr < t.length - p.length + 1 →
      sse42Go t p (fuel + 1) ptr = sse42Go t p fuel (c + 1)) := by
  obtain ⟨d, hw, hc, hk, hkne, hnext⟩ := sse42Step_failCand t p ptr c k next h
  refine ⟨hnext, ?_⟩
  intro hptr
  show (if ptr < t.length - p.length + 1 then
      match sse42Step t p ptr with
      | .noCand => none
      | .found c => some c
      | .failCand _ _ next => sse42Go t p fuel next
    else none) = sse42Go t p fuel (c + 1)
  rw [if_pos hptr, h, hnext]

/-- Witness for the amended C4 at the counterexample input. -/
theorem sse42_skip_is_one_witness :
    1 = 0 + 1 ∧
    sse42Go ['a', 'b', 'd'] ['a', 'b', 'c'] 2 0
      = sse42Go ['a', 'b', 'd'] ['a', 'b', 'c'] 1 (0 + 1) := by
  have h := sse42_skip_is_one ['a', 'b', 'd'] ['a', 'b', 'c'] 1 0 0 2 1 (by decide)
  exact ⟨h.1, h.2 (by decide)⟩

/-! ### Claim C6: the empty pattern -/

/-- Counterexample to claim C6 as stated: on the empty text, searching for
the empty pattern returns `none` and containment returns `false` on both
dispatch paths — `search` returns `text.begin()`, which equals `text.end()`,
and `search_pos` maps that to `nullopt` (the repository's own edge-case test
documents this). -/
theorem empty_pattern_empty_text_cex :
    search_pos false [] [] = none ∧ contains false [] [] = false ∧
    search_pos true [] [] = none ∧ contains true [] [] = false := by
  decide

/-- Claim C6 amended: searching for the empty pattern returns offset 0 and
containment returns `true` for every non-empty text, on both dispatch
paths; on the empty text the result is `none` / `false` because the
returned iterator equals `text.end()`. -/
theorem empty_pattern_spec (simd : Bool) (t : List Char) :
    search_pos simd t [] = (if t.isEmpty then none else some 0) ∧
    contains simd t [] = !t.isEmpty := by
  have hk : kmpSearchWith simd t [] = 0 := by
    unfold kmpSearchWith kmp_search_sse42
    cases simd <;> simp
  constructor
  · unfold search_pos
    rw [hk]
    cases t <;> simp
  · unfold contains search_pos
    rw [hk]
    cases t <;> simp

/-! ### DFA regex core: character classes (dfa.hpp 50-129) -/

/-- `config::max_dfa_states` (config.hpp). -/
def max_dfa_states : Nat := 10000

/-- The `no_transition` sentinel `static_cast<size_type>(-1)` (dfa.hpp 136),
also used as the dead-state marker in DFA transition rows. -/
def noTransition : Nat := 2 ^ 64 - 1

/-- `kmp::detail::char_class`: a 128-slot bitset over ASCII. -/
abbrev CharClass := List Bool

def ccEmpty : CharClass := List.replicate 128 false

/-- `char_class::set` (dfa.hpp 59-63). -/
def ccSet (cc : CharClass) (c : Char) : CharClass :=
  if c.toNat < 128 then cc.set c.toNat true else cc

/-- `char_class::set_range` (dfa.hpp 65-70): sets every slot in
`[a, b] ∩ [0, 128)`. -/
def ccSetRange (cc : CharClass) (a b : Nat) : CharClass :=
  (List.range 128).foldl (fun acc i => if a ≤ i ∧ i ≤ b then acc.set i true else acc) cc

/-- `char_class::flip` (dfa.hpp 76-82): the bitset is exactly 128 bits, so
the follow-up loop clearing positions at or above 128 is a no-op. -/
def ccFlip (cc : CharClass) : CharClass := cc.map (!·)

/-- `char_class::test` (dfa.hpp 84-87). -/
def ccTest (cc : CharClass) (c : Char) : Bool :=
  decide (c.toNat < 128) && cc.getD c.toNat false

/-- `char_class::digit` (dfa.hpp 94-98). -/
def ccDigit : CharClass := ccSetRange ccEmpty 48 57

/-- `char_class::word` (dfa.hpp 100-107). -/
def ccWord : CharClass :=
  ccSet (ccSetRange (ccSetRange (ccSetRange ccEmpty 97 122) 65 90) 48 57) '_'

/-- `char_class::space` (dfa.hpp 109-118). -/
def ccSpace : CharClass :=
  ccSet (ccSet (ccSet (ccSet (ccSet (ccSet ccEmpty ' ') (Char.ofNat 9))
    (Char.ofNat 10)) (Char.ofNat 13)) (Char.ofNat 12)) (Char.ofNat 11)

/-- `char_class::any_char` (dfa.hpp 120-125): all bits set, newline reset. -/
def ccAnyChar : CharClass := (List.replicate 128 true).set 10 false

/-! ### NFA states and Thompson fragments (dfa.hpp 131-176) -/

inductive NfaKind where
  | epsilon : NfaKind
  | charMatch : NfaKind
  | classMatch : NfaKind
  | accept : NfaKind
deriving DecidableEq

structure NfaState where
  kind : NfaKind
  matchChar : Char
  matchClass : CharClass
  next1 : Nat
  next2 : Nat
deriving DecidableEq

/-- Epsilon state literal `{type::epsilon, '\0', {}, n1, n2}`. -/
def nfaEps (n1 n2 : Nat) : NfaState := ⟨.epsilon, Char.ofNat 0, ccEmpty, n1, n2⟩

/-- Char-match state literal. -/
def nfaChar (c : Char) : NfaState :=
  ⟨.charMatch, c, ccEmpty, noTransition, noTransition⟩

/-- Class-match state literal. -/
def nfaClass (cc : CharClass) : NfaState :=
  ⟨.classMatch, Char.ofNat 0, cc, noTransition, noTransition⟩

/-- Accept state literal. -/
def nfaAccept : NfaState :=
  ⟨.accept, Char.ofNat 0, ccEmpty, noTransition, noTransition⟩

structure NfaFrag where
  fs : Nat
  fe : Nat
deriving DecidableEq

/-- `compiled_dfa::patch` (dfa.hpp 567-586): write `target` into the first
empty slot of state `state` (for epsilon states `next1` then `next2`, for
match states only `next1`); never overwrite a filled slot. -/
def patch (states : List NfaState) (state target : Nat) : List NfaState :=
  if state < states.length then
    let s := states.getD state nfaAccept
    if s.kind = .epsilon then
      if s.next1 = noTransition then states.set state { s with next1 := target }
      else if s.next2 = noTransition then states.set state { s with next2 := target }
      else states
    else
      if s.next1 = noTransition then states.set state { s with next1 := target }
      else states
  else states

/-- `make_star` (dfa.hpp 533-543). -/
def makeStar (st : List NfaState) (inner : NfaFrag) : NfaFrag × List NfaState :=
  let split := st.length
  let st1 := st ++ [nfaEps inner.fs noTransition]
  let st2 := patch st1 inner.fe split
  (⟨split, split⟩, st2)

/-- `make_plus` (dfa.hpp 545-555). -/
def makePlus (st : List NfaState) (inner : NfaFrag) : NfaFrag × List NfaState :=
  let split := st.length
  let st1 := st ++ [nfaEps inner.fs noTransition]
  let st2 := patch st1 inner.fe split
  (⟨inner.fs, split⟩, st2)

/-- `make_optional` (dfa.hpp 557-565): note the direct assignment
`nfa_states_[split].next2 = join` rather than a patch. -/
def makeOptional (st : List NfaState) (inner : NfaFrag) : NfaFrag × List NfaState :=
  let split := st.length
  let st1 := st ++ [nfaEps inner.fs noTransition]
  let join := st1.length
  let st2 := st1 ++ [nfaEps noTransition noTransition]
  let s := st2.getD split nfaAccept
  let st3 := st2.set split { s with next2 := join }
  let st4 := patch st3 inner.fe join
  (⟨split, join⟩, st4)

/-- `add_escape_to_class` (dfa.hpp 512-531). -/
def addEscapeToClass (cc : CharClass) (c : Char) : CharClass :=
  if c = 'd' then (List.range' 48 10).foldl (fun a i => ccSet a (Char.ofNat i)) cc
  else if c = 'w' then
    ccSet ((List.range' 48 10).foldl (fun a i => ccSet a (Char.ofNat i))
      ((List.range' 65 26).foldl (fun a i => ccSet a (Char.ofNat i))
        ((List.range' 97 26).foldl (fun a i => ccSet a (Char.ofNat i)) cc))) '_'
  else if c = 's' then
    ccSet (ccSet (ccSet (ccSet (ccSet (ccSet cc ' ') (Char.ofNat 9))
      (Char.ofNat 10)) (Char.ofNat 13)) (Char.ofNat 12)) (Char.ofNat 11)
  else ccSet cc c

/-! ### Recursive-descent regex parser (dfa.hpp 297-510)

The parser functions mutate `nfa_states_` and `pos`; the embedding threads
them explicitly and returns `Except` for the `throw std::runtime_error`
paths.  Each function carries a fuel argument bounding the recursion depth;
`buildNfa` supplies `8 * |pattern| + 16`, which dominates the depth of the
recursive descent (every nesting level and every loop iteration consumes
input). -/

abbrev ParseRes := Except String (NfaFrag × Nat × List NfaState)

/-- `parse_escape` (dfa.hpp 464-510); `pos` is already past the backslash. -/
def parseEscapeF (pat : List Char) (pos : Nat) (st : List NfaState) : ParseRes :=
  if pos < pat.length then
    let c := pat.getD pos dChar
    let state := st.length
    if c = 'd' then .ok (⟨state, state⟩, pos + 1, st ++ [nfaClass ccDigit])
    else if c = 'D' then .ok (⟨state, state⟩, pos + 1, st ++ [nfaClass (ccFlip ccDigit)])
    else if c = 'w' then .ok (⟨state, state⟩, pos + 1, st ++ [nfaClass ccWord])
    else if c = 'W' then .ok (⟨state, state⟩, pos + 1, st ++ [nfaClass (ccFlip ccWord)])
    else if c = 's' then .ok (⟨state, state⟩, pos + 1, st ++ [nfaClass ccSpace])
    else if c = 'S' then .ok (⟨state, state⟩, pos + 1, st ++ [nfaClass (ccFlip ccSpace)])
    else .ok (⟨state, state⟩, pos + 1, st ++ [nfaChar c])
  else .error "Incomplete escape sequence"

/-- The class-item loop of `parse_char_class` (dfa.hpp 434-453). -/
def classItemsF (pat : List Char) : Nat → Nat → CharClass → Except String (CharClass × Nat)
  | 0, _, _ => .error "fuel"
  | fuel + 1, pos, cc =>
    if pos < pat.length ∧ pat.getD pos dChar ≠ ']' then
      let c := pat.getD pos dChar
      if c = '\\' ∧ pos + 1 < pat.length then
        classItemsF pat fuel (pos + 2) (addEscapeToClass cc (pat.getD (pos + 1) dChar))
      else if pos + 2 < pat.length ∧ pat.getD (pos + 1) dChar = '-' ∧
          pat.getD (pos + 2) dChar ≠ ']' then
        classItemsF pat fuel (pos + 3) (ccSetRange cc c.toNat (pat.getD (pos + 2) dChar).toNat)
      else classItemsF pat fuel (pos + 1) (ccSet cc c)
    else
      if pos < pat.length then .ok (cc, pos + 1)
      else .error "Unclosed character class"

/-- `parse_char_class` (dfa.hpp 423-462). -/
def parseCharClassF (pat : List Char) (fuel pos : Nat) (st : List NfaState) : ParseRes :=
  let pos1 := pos + 1
  let negated := pos1 < pat.length ∧ pat.getD pos1 dChar = '^'
  let pos2 := if negated then pos1 + 1 else pos1
  match classItemsF pat fuel pos2 ccEmpty with
  | .error e => .error e
  | .ok (cc, pos3) =>
    let cc1 := if negated then ccFlip cc else cc
    .ok (⟨st.length, st.length⟩, pos3, st ++ [nfaClass cc1])

mutual

/-- `parse_regex` (dfa.hpp 298-300). -/
def parseRegexF (pat : List Char) : Nat → Nat → List NfaState → ParseRes
  | 0, _, _ => .error "fuel"
  | fuel + 1, pos, st => parseAltF pat fuel pos st
termination_by structural fuel _ _ => fuel

/-- `parse_alternation` (dfa.hpp 302-324), entry. -/
def parseAltF (pat : List Char) : Nat → Nat → List NfaState → ParseRes
  | 0, _, _ => .error "fuel"
  | fuel + 1, pos, st =>
    match parseConcatF pat fuel pos st with
    | .error e => .error e
    | .ok (left, pos1, st1) => parseAltLoopF pat fuel left pos1 st1
termination_by structural fuel _ _ => fuel

/-- The `'|'` loop of `parse_alternation` (dfa.hpp 305-321). -/
def parseAltLoopF (pat : List Char) : Nat → NfaFrag → Nat → List NfaState → ParseRes
  | 0, _, _, _ => .error "fuel"
  | fuel + 1, left, pos, st =>
    if pos < pat.length ∧ pat.getD pos dChar = '|' then
      match parseConcatF pat fuel (pos + 1) st with
      | .error e => .error e
      | .ok (right, pos1, st1) =>
        let split := st1.length
        let st2 := st1 ++ [nfaEps left.fs right.fs]
        let join := st2.length
        let st3 := st2 ++ [nfaEps noTransition noTransition]
        let st4 := patch st3 left.fe join
        let st5 := patch st4 right.fe join
        parseAltLoopF pat fuel ⟨split, join⟩ pos1 st5
    else .ok (left, pos, st)
termination_by structural fuel _ _ _ => fuel

/-- `parse_concatenation` (dfa.hpp 326-350), entry (`first = true`). -/
def parseConcatF (pat : List Char) : Nat → Nat → List NfaState → ParseRes
  | 0, _, _ => .error "fuel"
  | fuel + 1, pos, st => parseConcatLoopF pat fuel none pos st
termination_by structural fuel _ _ => fuel

/-- The atom loop of `parse_concatenation`; `acc = none` models
`first = true`.  On exit with `first` still true an epsilon state is
created (empty pattern case, dfa.hpp 342-347). -/
def parseConcatLoopF (pat : List Char) :
    Nat → Option NfaFrag → Nat → List NfaState → ParseRes
  | 0, _, _, _ => .error "fuel"
  | fuel + 1, acc, pos, st =>
    if pos < pat.length ∧ pat.getD pos dChar ≠ '|' ∧ pat.getD pos dChar ≠ ')' then
      match parseQuantF pat fuel pos st with
      | .error e => .error e
      | .ok (atom, pos1, st1) =>
        match acc with
        | none => parseConcatLoopF pat fuel (some atom) pos1 st1
        | some res =>
          parseConcatLoopF pat fuel (some ⟨res.fs, atom.fe⟩) pos1
            (patch st1 res.fe atom.fs)
    else
      match acc with
      | some res => .ok (res, pos, st)
      | none => .ok (⟨st.length, st.length⟩, pos, st ++ [nfaEps noTransition noTransition])
termination_by structural fuel _ _ _ => fuel

/-- `parse_quantified` (dfa.hpp 352-372). -/
def parseQuantF (pat : List Char) : Nat → Nat → List NfaState → ParseRes
  | 0, _, _ => .error "fuel"
  | fuel + 1, pos, st =>
    match parseAtomF pat fuel pos st with
    | .error e => .error e
    | .ok (base, pos1, st1) =>
      if pos1 < pat.length then
        let q := pat.getD pos1 dChar
        if q = '*' then
          let r := makeStar st1 base
          .ok (r.1, pos1 + 1, r.2)
        else if q = '+' then
          let r := makePlus st1 base
          .ok (r.1, pos1 + 1, r.2)
        else if q = '?' then
          let r := makeOptional st1 base
          .ok (r.1, pos1 + 1, r.2)
        else .ok (base, pos1, st1)
      else .ok (base, pos1, st1)
termination_by structural fuel _ _ => fuel

/-- `parse_atom` (dfa.hpp 374-421). -/
def parseAtomF (pat : List Char) : Nat → Nat → List NfaState → ParseRes
  | 0, _, _ => .error "fuel"
  | fuel + 1, pos, st =>
    if pos < pat.length then
      let c := pat.getD pos dChar
      if c = '(' then
        match parseRegexF pat fuel (pos + 1) st with
        | .error e => .error e
        | .ok (inner, pos1, st1) =>
          if pos1 < pat.length ∧ pat.getD pos1 dChar = ')' then
            .ok (inner, pos1 + 1, st1)
          else .error "Unmatched parenthesis"
      else if c = '[' then parseCharClassF pat fuel pos st
      else if c = '.' then
        .ok (⟨st.length, st.length⟩, pos + 1, st ++ [nfaClass ccAnyChar])
      else if c = '\\' then parseEscapeF pat (pos + 1) st
      else if c = '^' ∨ c = '$' then
        .ok (⟨st.length, st.length⟩, pos + 1, st ++ [nfaEps noTransition noTransition])
      else .ok (⟨st.length, st.length⟩, pos + 1, st ++ [nfaChar c])
    else .error "Unexpected end of pattern"
termination_by structural fuel _ _ => fuel

end

/-- `build_nfa` (dfa.hpp 279-295): parse, append the accept state, patch the
top fragment's dangling end to it.  No check that the whole source was
consumed: parsing stops at the first top-level `')'` and the remaining
characters are discarded. -/
def buildNfa (pat : List Char) : Except String (Nat × List NfaState) :=
  match parseRegexF pat (8 * pat.length + 16) 0 [] with
  | .error e => .error e
  | .ok (frag, _pos, st) =>
    let accept := st.length
    let st1 := st ++ [nfaAccept]
    let st2 := patch st1 frag.fe accept
    .ok (frag.fs, st2)

/-! ### Subset construction (dfa.hpp 589-710) -/

/-- `kmp::detail::dfa_state` (dfa.hpp 169-176): a 128-entry transition row
(initialised to the dead sentinel) and an accept flag. -/
structure DfaState where
  transitions : List Nat
  isAccept : Bool
deriving DecidableEq

/-- The `dfa_state` default constructor. -/
def dfaStateNew : DfaState := ⟨List.replicate 128 noTransition, false⟩

/-- One step of `epsilon_closure` (dfa.hpp 589-608): pop a state; if it is
an in-range epsilon state, insert its non-sentinel successors into the
visited set and push the newly inserted ones.  The C++ `unordered_set`
`states` is embedded as the duplicate-free list `visited` (insertion
order); the DFS stack's back is the list head.  Fuel bounds the number of
pops: every value is pushed at most once after its insertion, so
`|init| + 2·|nfa|` pushes dominate and the fuel below suffices (proved in
the closure lemmas). -/
def insStep (visited stack : List Nat) (v : Nat) : List Nat × List Nat :=
  if v ≠ noTransition ∧ v ∉ visited then (visited ++ [v], v :: stack)
  else (visited, stack)

def epsClosureGo (nfa : List NfaState) : Nat → List Nat → List Nat → List Nat
  | 0, visited, _ => visited
  | _ + 1, visited, [] => visited
  | fuel + 1, visited, s :: stack =>
    if s < nfa.length then
      let st := nfa.getD s nfaAccept
      if st.kind = .epsilon then
        let r1 := insStep visited stack st.next1
        let r2 := insStep r1.1 r1.2 st.next2
        epsClosureGo nfa fuel r2.1 r2.2
      else epsClosureGo nfa fuel visited stack
    else epsClosureGo nfa fuel visited stack

/-- `epsilon_closure` of a set of NFA states, as the list of reached
states. -/
def epsClosure (nfa : List NfaState) (init : List Nat) : List Nat :=
  epsClosureGo nfa (3 * init.length + 4 * nfa.length + 1) init init

/-- The per-state body of the image-set loop (dfa.hpp 663-678): the value
inserted into `next_set` for a member `s` of the current subset on byte
`c`, if any — `next1` when `s` is in range, its predicate accepts `c`, and
`next1` is not the sentinel. -/
def moveTarget (nfa : List NfaState) (c : Nat) (s : Nat) : Option Nat :=
  if s < nfa.length then
    let st := nfa.getD s nfaAccept
    let mtch : Bool :=
      if st.kind = .charMatch then decide (st.matchChar.toNat = c)
      else if st.kind = .classMatch then ccTest st.matchClass (Char.ofNat c)
      else false
    if mtch ∧ st.next1 ≠ noTransition then some st.next1 else none
  else none

/-- The image-set loop of `build_dfa` (dfa.hpp 663-678): collect `next1` of
every state of `current` whose predicate accepts byte `c`, inserting
without duplicates (the C++ `next_set` is an `unordered_set`). -/
def moveSetGo (nfa : List NfaState) (c : Nat) : List Nat → List Nat → List Nat
  | [], acc => acc
  | s :: rest, acc =>
    match moveTarget nfa c s with
    | some x =>
      if x ∈ acc then moveSetGo nfa c rest acc
      else moveSetGo nfa c rest (acc ++ [x])
    | none => moveSetGo nfa c rest acc

/-- The acceptance check over a subset (dfa.hpp 641-646 and 696-701). -/
def hasAcceptState (nfa : List NfaState) (set : List Nat) : Bool :=
  set.any (fun s =>
    decide (s < nfa.length) && decide ((nfa.getD s nfaAccept).kind = NfaKind.accept))

/-- `set_to_key` (dfa.hpp 620-628): the canonical key of a subset is its
sorted list of members (the C++ renders the sorted vector as a string; the
sorted duplicate-free list carries the same information). -/
def setKey (l : List Nat) : List Nat := l.insertionSort (· ≤ ·)

/-- Lookup in the subset-to-index map (`state_map`), embedded as an
association list keyed by canonical keys. -/
def findKey : List (List Nat × Nat) → List Nat → Option Nat
  | [], _ => none
  | (k, v) :: rest, key => if k = key then some v else findKey rest key

/-- Write `states_[i].transitions[c] = v`. -/
def setTrans (states : List DfaState) (i c v : Nat) : List DfaState :=
  states.set i
    ⟨(states.getD i dfaStateNew).transitions.set c v, (states.getD i dfaStateNew).isAccept⟩

/-- The mutable state of `build_dfa`: the DFA rows built so far, the
`state_map`, and the unprocessed tail of the worklist. -/
structure BuildSt where
  states : List DfaState
  keyMap : List (List Nat × Nat)
  pending : List (List Nat)
deriving DecidableEq

/-- Per-byte body of the `build_dfa` worklist iteration (dfa.hpp 660-708):
form the image set, skip if empty, close it, canonicalise, reuse or
allocate the target DFA state, and record the transition. -/
def processChar (nfa : List NfaState) (currentIdx : Nat) (current : List Nat)
    (st : BuildSt) (c : Nat) : BuildSt :=
  let ns := moveSetGo nfa c current []
  if ns.isEmpty then st
  else
    let tset := epsClosure nfa ns
    let key := setKey tset
    match findKey st.keyMap key with
    | some idx => ⟨setTrans st.states currentIdx c idx, st.keyMap, st.pending⟩
    | none =>
      let idx := st.states.length
      ⟨setTrans (st.states ++ [⟨List.replicate 128 noTransition, hasAcceptState nfa tset⟩])
          currentIdx c idx,
        st.keyMap ++ [(key, idx)], st.pending ++ [tset]⟩

/-- The error text of the state-cap check (dfa.hpp 651). -/
def limitErr : String := "DFA state limit exceeded - pattern too complex"

/-- The `build_dfa` worklist loop (dfa.hpp 648-709).  The guard order is the
source's: the `processed < worklist.size()` condition (here: `pending`
non-empty) is tested first, and the cap check `states_.size() >
max_dfa_states` runs at the top of the iteration — after any states pushed
by earlier iterations.  Each iteration consumes one worklist entry, and
entries are in bijection with DFA states, so `cap + 130` fuel dominates. -/
def buildDfaLoop (nfa : List NfaState) (cap : Nat) : Nat → BuildSt → Except String (List DfaState)
  | 0, _ => .error "fuel"
  | fuel + 1, st =>
    match st.pending with
    | [] => .ok st.states
    | current :: rest =>
      if cap < st.states.length then .error limitErr
      else
        buildDfaLoop nfa cap fuel
          ((List.range 128).foldl
            (processChar nfa ((findKey st.keyMap (setKey current)).getD 0) current)
            ⟨st.states, st.keyMap, rest⟩)

/-- `build_dfa` (dfa.hpp 610-710): empty NFA gives an empty DFA; otherwise
seed with the epsilon closure of the NFA start state as DFA state 0 and run
the worklist. -/
def build_dfa (nfaStart : Nat) (nfa : List NfaState) : Except String (List DfaState) :=
  if nfa.isEmpty then .ok []
  else
    let startSet := epsClosure nfa [nfaStart]
    buildDfaLoop nfa max_dfa_states (max_dfa_states + 130)
      ⟨[⟨List.replicate 128 noTransition, hasAcceptState nfa startSet⟩],
        [(setKey startSet, 0)], [startSet]⟩

/-- `compiled_dfa::compile` = `build_nfa` then `build_dfa` (dfa.hpp
271-277); `kmp::compile_regex` wraps the result.  The compiled value is the
DFA state table, the only data the matchers read. -/
def compileRegex (src : List Char) : Except String (List DfaState) :=
  match buildNfa src with
  | .error e => .error e
  | .ok (start, nfa) => build_dfa start nfa

/-! ### The DFA matchers (dfa.hpp 198-256) -/

/-- The stepping loop of `compiled_dfa::matches` (dfa.hpp 240-255). -/
def dfaMatchesGo (states : List DfaState) : Nat → List Char → Bool
  | s, [] => (states.getD s dfaStateNew).isAccept
  | s, c :: rest =>
    if 128 ≤ c.toNat then false
    else
      let nxt := (states.getD s dfaStateNew).transitions.getD c.toNat noTransition
      if nxt = noTransition then false
      else dfaMatchesGo states nxt rest

/-- `compiled_dfa::matches` (dfa.hpp 235-256): anchored whole-input match
from state 0. -/
def dfaMatches (states : List DfaState) (t : List Char) : Bool :=
  if states.isEmpty then false else dfaMatchesGo states 0 t

/-- The inner loop of `compiled_dfa::search` (dfa.hpp 207-222): step from
state 0 through `text[start..]`; report success as soon as an accepting
state is reached; stop on a non-ASCII byte or a dead transition. -/
def dfaSearchInner (states : List DfaState) : Nat → List Char → Bool
  | _, [] => false
  | s, c :: rest =>
    if 128 ≤ c.toNat then false
    else
      let nxt := (states.getD s dfaStateNew).transitions.getD c.toNat noTransition
      if nxt = noTransition then false
      else if (states.getD nxt dfaStateNew).isAccept then true
      else dfaSearchInner states nxt rest

/-- The outer loop of `compiled_dfa::search` over starting offsets
(dfa.hpp 203-227); `matched` is `states_[0].is_accept`, checked after the
inner loop. -/
def dfaSearchGo (states : List DfaState) (t : List Char) : Nat → Nat → Option Nat
  | _, 0 => none
  | start, rem + 1 =>
    if dfaSearchInner states 0 (t.drop start) then some start
    else if (states.getD 0 dfaStateNew).isAccept then some start
    else dfaSearchGo states t (start + 1) rem

/-- `compiled_dfa::search` (dfa.hpp 198-230). -/
def dfaSearch (states : List DfaState) (t : List Char) : Option Nat :=
  if states.isEmpty then none else dfaSearchGo states t 0 t.length

instance {ε α : Type} [DecidableEq ε] [DecidableEq α] : DecidableEq (Except ε α) :=
  fun a b =>
    match a, b with
    | .error e, .error f =>
      if h : e = f then isTrue (by rw [h])
      else isFalse (fun hc => by cases hc; exact h rfl)
    | .error _, .ok _ => isFalse (fun hc => by cases hc)
    | .ok _, .error _ => isFalse (fun hc => by cases hc)
    | .ok x, .ok y =>
      if h : x = y then isTrue (by rw [h])
      else isFalse (fun hc => by cases hc; exact h rfl)

/-! ### Claim C10: an unmatched `')'` silently truncates the source -/

/-- Parsing a source that starts `a)` stops at the top-level `')'` with
position 1 and a single char-match NFA state, for every continuation and
for every sufficiently large fuel. -/
theorem parse_stops_at_paren (rest : List Char) (f : Nat) :
    parseRegexF ('a' :: ')' :: rest) (f + 6) 0 [] =
      .ok (⟨0, 0⟩, 1, [nfaChar 'a']) := by
  have hAtom : parseAtomF ('a' :: ')' :: rest) (f + 1) 0 [] =
      .ok (⟨0, 0⟩, 1, [nfaChar 'a']) := by
    simp [parseAtomF, dChar]
  have hQuant : parseQuantF ('a' :: ')' :: rest) (f + 2) 0 [] =
      .ok (⟨0, 0⟩, 1, [nfaChar 'a']) := by
    simp [parseQuantF, hAtom, dChar]
  have hLoop2 : parseConcatLoopF ('a' :: ')' :: rest) (f + 2)
      (some ⟨0, 0⟩) 1 [nfaChar 'a'] = .ok (⟨0, 0⟩, 1, [nfaChar 'a']) := by
    simp [parseConcatLoopF, dChar]
  have hLoop : parseConcatLoopF ('a' :: ')' :: rest) (f + 3) none 0 [] =
      .ok (⟨0, 0⟩, 1, [nfaChar 'a']) := by
    simp only [parseConcatLoopF]
    rw [if_pos (by simp [dChar])]
    rw [hQuant]
    exact hLoop2
  have hConcat : parseConcatF ('a' :: ')' :: rest) (f + 4) 0 [] =
      .ok (⟨0, 0⟩, 1, [nfaChar 'a']) := by
    simp only [parseConcatF]
    exact hLoop
  have hAltLoop : parseAltLoopF ('a' :: ')' :: rest) (f + 4) ⟨0, 0⟩ 1 [nfaChar 'a'] =
      .ok (⟨0, 0⟩, 1, [nfaChar 'a']) := by
    simp [parseAltLoopF, dChar]
  have hAlt : parseAltF ('a' :: ')' :: rest) (f + 5) 0 [] =
      .ok (⟨0, 0⟩, 1, [nfaChar 'a']) := by
    simp only [parseAltF]
    rw [hConcat]
    exact hAltLoop
  simp only [parseRegexF]
  exact hAlt

/-- Claim C10: `compile_regex` does not reject an unmatched closing
parenthesis — parsing stops at the first top-level `')'` and every
remaining character is discarded, so `compile_regex("a)" ++ rest)` compiles
to exactly the same DFA as `compile_regex("a")` for every `rest`; in
particular `compile_regex("a)b")` succeeds and accepts the same texts as
`compile_regex("a")`. -/
theorem compileRegex_paren_discard :
    (∀ rest : List Char, compileRegex ('a' :: ')' :: rest) = compileRegex ['a']) ∧
    (compileRegex ['a', ')', 'b']).isOk = true ∧
    (compileRegex ['a', ')', 'b']).map (fun d => dfaMatches d ['a'])
        = (compileRegex ['a']).map (fun d => dfaMatches d ['a']) := by
  have hmain : ∀ rest : List Char,
      compileRegex ('a' :: ')' :: rest) = compileRegex ['a'] := by
    intro rest
    unfold compileRegex buildNfa
    have h1 : 8 * ('a' :: ')' :: rest).length + 16 = (8 * rest.length + 26) + 6 := by
      simp only [List.length_cons]
      omega
    have h2 : parseRegexF ['a'] (8 * (['a'] : List Char).length + 16) 0 [] =
        .ok (⟨0, 0⟩, 1, [nfaChar 'a']) := by decide
    rw [h1, parse_stops_at_paren rest (8 * rest.length + 26), h2]
  refine ⟨hmain, ?_, ?_⟩
  · rw [show (['a', ')', 'b'] : List Char) = 'a' :: ')' :: ['b'] from rfl, hmain ['b']]
    decide
  · rw [show (['a', ')', 'b'] : List Char) = 'a' :: ')' :: ['b'] from rfl, hmain ['b']]

/-! ### Claim C9: `search` on the empty text -/

/-- Claim C9: `search("")` returns `None` for every DFA — the outer loop
ranges over starting offsets strictly below the text length, so the empty
text yields no iteration — even when the DFA accepts the empty string; for
the compiled regex `a*` in particular, `matches("") = true` while
`search("") = None`. -/
theorem dfaSearch_empty_none :
    (∀ states : List DfaState, dfaSearch states [] = none) ∧
    (compileRegex ['a', '*']).map (fun d => (dfaMatches d [], dfaSearch d []))
      = .ok (true, none) := by
  constructor
  · intro states
    unfold dfaSearch
    split
    · rfl
    · rfl
  · decide

/-! ### Claim C5: the anchored matcher -/

/-- Stepping characterisation of the `matches` loop from an arbitrary
state: it returns `true` iff there is a sequence of states, starting at
`s`, in which every byte of the text is ASCII and drives a live (non-dead)
transition, and whose final state accepts. -/
theorem dfaMatchesGo_iff (states : List DfaState) :
    ∀ t : List Char, ∀ s, dfaMatchesGo states s t = true ↔
      ∃ seq : List Nat, seq.length = t.length + 1 ∧ seq.getD 0 0 = s ∧
        (∀ i, i < t.length →
          (t.getD i dChar).toNat < 128 ∧
          (states.getD (seq.getD i 0) dfaStateNew).transitions.getD
              (t.getD i dChar).toNat noTransition = seq.getD (i + 1) 0 ∧
          seq.getD (i + 1) 0 ≠ noTransition) ∧
        (states.getD (seq.getD t.length 0) dfaStateNew).isAccept = true := by
  intro t
  induction t with
  | nil =>
    intro s
    simp only [dfaMatchesGo, List.length_nil]
    constructor
    · intro h
      exact ⟨[s], rfl, rfl, by intro i hi; omega, by simpa using h⟩
    · rintro ⟨seq, hlen, hhead, -, hacc⟩
      rwa [hhead] at hacc
  | cons c rest ih =>
    intro s
    simp only [dfaMatchesGo, List.length_cons]
    by_cases hA : 128 ≤ c.toNat
    · rw [if_pos hA]
      simp only [Bool.false_eq_true, false_iff]
      rintro ⟨seq, hlen, hhead, hsteps, hacc⟩
      have h0 := (hsteps 0 (by omega)).1
      simp only [List.getD_cons_zero] at h0
      omega
    · rw [if_neg hA]
      by_cases hd : (states.getD s dfaStateNew).transitions.getD c.toNat noTransition
          = noTransition
      · rw [if_pos hd]
        simp only [Bool.false_eq_true, false_iff]
        rintro ⟨seq, hlen, hhead, hsteps, hacc⟩
        obtain ⟨-, htr, hne⟩ := hsteps 0 (by omega)
        simp only [List.getD_cons_zero] at htr
        rw [hhead] at htr
        rw [htr] at hd
        exact hne hd
      · rw [if_neg hd, ih _]
        constructor
        · rintro ⟨seq, hlen, hhead, hsteps, hacc⟩
          refine ⟨s :: seq, by simp [hlen], by simp, ?_, ?_⟩
          · intro i hi
            match i with
            | 0 =>
              refine ⟨by simpa using Nat.lt_of_not_le hA, ?_, ?_⟩
              · simp only [List.getD_cons_zero, List.getD_cons_succ]
                rw [hhead]
              · simp only [List.getD_cons_succ]
                rw [hhead]
                exact hd
            | i + 1 =>
              obtain ⟨ha, hb, hc2⟩ := hsteps i (by omega)
              exact ⟨ha, by simpa using hb, by simpa using hc2⟩
          · simpa using hacc
        · rintro ⟨seq, hlen, hhead, hsteps, hacc⟩
          match seq, hlen with
          | s0 :: seq', hlen =>
            have hs0 : s0 = s := by simpa using hhead
            subst hs0
            obtain ⟨-, htr0, hne0⟩ := hsteps 0 (by omega)
            simp only [List.getD_cons_zero, List.getD_cons_succ] at htr0
            refine ⟨seq', by simpa using hlen, htr0.symm, ?_, ?_⟩
            · intro i hi
              obtain ⟨ha, hb, hc2⟩ := hsteps (i + 1) (by omega)
              exact ⟨by simpa using ha, by simpa using hb, by simpa using hc2⟩
            · simpa using hacc

/-- Claim C5: for every non-empty compiled DFA state table and every text,
`matches(text)` returns `true` iff stepping the DFA from state 0 through
every byte never sees a non-ASCII byte (≥ 128), never follows the dead
sentinel, and ends in a state with `is_accept = true`; in particular any
non-ASCII byte or dead transition on the path makes `matches` return
`false`. -/
theorem dfaMatches_iff (states : List DfaState) (t : List Char)
    (hne : states ≠ []) :
    dfaMatches states t = true ↔
      ∃ seq : List Nat, seq.length = t.length + 1 ∧ seq.getD 0 0 = 0 ∧
        (∀ i, i < t.length →
          (t.getD i dChar).toNat < 128 ∧
          (states.getD (seq.getD i 0) dfaStateNew).transitions.getD
              (t.getD i dChar).toNat noTransition = seq.getD (i + 1) 0 ∧
          seq.getD (i + 1) 0 ≠ noTransition) ∧
        (states.getD (seq.getD t.length 0) dfaStateNew).isAccept = true := by
  unfold dfaMatches
  rw [if_neg (by simpa using hne)]
  exact dfaMatchesGo_iff states t 0

/-- Witness for C5: a one-state DFA accepting exactly `"a"*`-free...
rather: a single accepting state with a self loop on byte 97 matches
`"a"`. -/
theorem dfaMatches_iff_witness :
    dfaMatches [⟨(List.replicate 128 noTransition).set 97 0, true⟩] ['a'] = true :=
  (dfaMatches_iff [⟨(List.replicate 128 noTransition).set 97 0, true⟩] ['a']
    (by decide)).mpr ⟨[0, 0], by decide, by decide, by decide, by decide⟩

/-! ### Claim C7: when the state-cap error is raised -/

/-- One processed worklist iteration of `build_dfa` (the loop body executed
when the pending list is non-empty and the cap guard does not fire). -/
inductive BuildStepRel (nfa : List NfaState) (cap : Nat) : BuildSt → BuildSt → Prop where
  | mk : ∀ (st : BuildSt) (current : List Nat) (rest : List (List Nat)),
      st.pending = current :: rest →
      ¬ cap < st.states.length →
      BuildStepRel nfa cap st
        ((List.range 128).foldl
          (processChar nfa ((findKey st.keyMap (setKey current)).getD 0) current)
          ⟨st.states, st.keyMap, rest⟩)

/-- Reachability along processed worklist iterations. -/
def BuildReach (nfa : List NfaState) (cap : Nat) : BuildSt → BuildSt → Prop :=
  Relation.ReflTransGen (BuildStepRel nfa cap)

/-- The `build_dfa` loop raises the pattern-too-complex error only from a
loop entry whose DFA state count already *strictly exceeds* the cap: the
guard `states_.size() > max_dfa_states` runs at the top of a worklist
iteration, after the previous iteration pushed its states (up to 128 of
them) with no intermediate check.  Consequently, at the moment the error is
raised the state count exceeds the cap — it is not raised before the
offending state is added. -/
theorem buildDfaLoop_limit_exceeds (nfa : List NfaState) (cap : Nat) :
    ∀ fuel st, buildDfaLoop nfa cap fuel st = .error limitErr →
      ∃ st', BuildReach nfa cap st st' ∧ st'.pending ≠ [] ∧
        cap < st'.states.length := by
  intro fuel
  induction fuel with
  | zero =>
    intro st h
    simp only [buildDfaLoop] at h
    exact absurd (Except.error.inj h) (by decide)
  | succ fuel ih =>
    intro st h
    cases hp : st.pending with
    | nil =>
      simp only [buildDfaLoop, hp] at h
      cases h
    | cons current rest =>
      simp only [buildDfaLoop, hp] at h
      by_cases hcap : cap < st.states.length
      · exact ⟨st, Relation.ReflTransGen.refl, by rw [hp]; simp, hcap⟩
      · rw [if_neg hcap] at h
        obtain ⟨st', hreach, hpend, hc⟩ := ih _ h
        exact ⟨st',
          Relation.ReflTransGen.head (BuildStepRel.mk st current rest hp hcap) hreach,
          hpend, hc⟩

/-- A concrete two-letter NFA (`ab` with an accept state) used to witness
the lazy cap check. -/
def nfaW : List NfaState :=
  [⟨.charMatch, 'a', ccEmpty, 1, noTransition⟩,
   ⟨.charMatch, 'b', ccEmpty, 2, noTransition⟩,
   nfaAccept]

/-- A `build_dfa` loop state holding one DFA state with its subset queued. -/
def stW : BuildSt :=
  ⟨[⟨List.replicate 128 noTransition, false⟩], [([0], 0)], [[0]]⟩

/-- Witness: running the loop with cap 1 from a within-cap state raises the
limit error, and by the theorem the raise happens at a reachable loop entry
whose state count strictly exceeds the cap (here 2 > 1) — the second DFA
state was added before any check. -/
theorem buildDfaLoop_limit_exceeds_witness :
    ∃ st', BuildReach nfaW 1 stW st' ∧ st'.pending ≠ [] ∧
      1 < st'.states.length :=
  buildDfaLoop_limit_exceeds nfaW 1 3 stW (by decide)

/-! ### Claim C8: the construction is independent of hash-container order -/

/-- One epsilon edge of the NFA: from an in-range epsilon state to a
non-sentinel successor (dfa.hpp 595-605). -/
def EpsStepR (nfa : List NfaState) (a b : Nat) : Prop :=
  a < nfa.length ∧ (nfa.getD a nfaAccept).kind = NfaKind.epsilon ∧
    (b = (nfa.getD a nfaAccept).next1 ∨ b = (nfa.getD a nfaAccept).next2) ∧
    b ≠ noTransition

/-- Reachability along epsilon edges. -/
def EpsReach (nfa : List NfaState) : Nat → Nat → Prop :=
  Relation.ReflTransGen (EpsStepR nfa)

/-- Every value the closure can ever insert starting from `init`. -/
def epsBase (nfa : List NfaState) (init : List Nat) : List Nat :=
  init ++ (nfa.map (fun st => st.next1) ++ nfa.map (fun st => st.next2))

theorem epsStep_mem_base (nfa : List NfaState) (init : List Nat) :
    ∀ a b, EpsStepR nfa a b → b ∈ epsBase nfa init := by
  rintro a b ⟨ha, -, hb, -⟩
  have hmem : nfa.getD a nfaAccept ∈ nfa := by
    rw [List.getD_eq_getElem nfa nfaAccept ha]; exact List.getElem_mem ha
  rcases hb with h | h
  · exact List.mem_append_right _
      (List.mem_append_left _ (h ▸ List.mem_map_of_mem _ hmem))
  · exact List.mem_append_right _
      (List.mem_append_right _ (h ▸ List.mem_map_of_mem _ hmem))

theorem insStep_visited_sub {visited stack : List Nat} {v x : Nat}
    (h : x ∈ visited) : x ∈ (insStep visited stack v).1 := by
  unfold insStep; split
  · exact List.mem_append_left _ h
  · exact h

theorem insStep_nodup {visited stack : List Nat} {v : Nat} (h : visited.Nodup) :
    (insStep visited stack v).1.Nodup := by
  by_cases hc : v ≠ noTransition ∧ v ∉ visited
  · rw [insStep, if_pos hc]
    simpa [List.nodup_append] using ⟨h, hc.2⟩
  · rw [insStep, if_neg hc]; exact h

theorem insStep_pred {P : Nat → Prop} {visited stack : List Nat} {v : Nat}
    (hv : ∀ x ∈ visited, P x) (hs : ∀ x ∈ stack, P x) (hnew : v ≠ noTransition → P v) :
    (∀ x ∈ (insStep visited stack v).1, P x) ∧ (∀ x ∈ (insStep visited stack v).2, P x) := by
  by_cases hc : v ≠ noTransition ∧ v ∉ visited
  · rw [insStep, if_pos hc]
    constructor
    · intro x hx
      rcases List.mem_append.mp hx with h | h
      · exact hv x h
      · rw [List.mem_singleton] at h; exact h ▸ hnew hc.1
    · intro x hx
      rcases List.mem_cons.mp hx with h | h
      · exact h ▸ hnew hc.1
      · exact hs x h
  · rw [insStep, if_neg hc]; exact ⟨hv, hs⟩

theorem epsGo_mono (nfa : List NfaState) :
    ∀ fuel visited stack x, x ∈ visited → x ∈ epsClosureGo nfa fuel visited stack := by
  intro fuel
  induction fuel with
  | zero => intro visited stack x hx; simpa [epsClosureGo] using hx
  | succ fuel ih =>
    intro visited stack x hx
    cases stack with
    | nil => simpa [epsClosureGo] using hx
    | cons s stack =>
      simp only [epsClosureGo]
      by_cases hs : s < nfa.length
      · by_cases hk : (nfa.getD s nfaAccept).kind = NfaKind.epsilon
        · rw [if_pos hs, if_pos hk]
          exact ih _ _ x (insStep_visited_sub (insStep_visited_sub hx))
        · rw [if_pos hs, if_neg hk]; exact ih _ _ x hx
      · rw [if_neg hs]; exact ih _ _ x hx

theorem epsGo_nodup (nfa : List NfaState) :
    ∀ fuel visited stack, visited.Nodup → (epsClosureGo nfa fuel visited stack).Nodup := by
  intro fuel
  induction fuel with
  | zero => intro visited stack h; simpa [epsClosureGo] using h
  | succ fuel ih =>
    intro visited stack h
    cases stack with
    | nil => simpa [epsClosureGo] using h
    | cons s stack =>
      simp only [epsClosureGo]
      by_cases hs : s < nfa.length
      · by_cases hk : (nfa.getD s nfaAccept).kind = NfaKind.epsilon
        · rw [if_pos hs, if_pos hk]
          exact ih _ _ (insStep_nodup (insStep_nodup h))
        · rw [if_pos hs, if_neg hk]; exact ih _ _ h
      · rw [if_neg hs]; exact ih _ _ h

theorem epsGo_sound (nfa : List NfaState) (P : Nat → Prop)
    (hP : ∀ a b, P a → EpsStepR nfa a b → P b) :
    ∀ fuel visited stack, (∀ v ∈ visited, P v) → (∀ v ∈ stack, P v) →
      ∀ x ∈ epsClosureGo nfa fuel visited stack, P x := by
  intro fuel
  induction fuel with
  | zero =>
    intro visited stack hv _ x hx
    rw [epsClosureGo] at hx; exact hv x hx
  | succ fuel ih =>
    intro visited stack hv hst x hx
    cases stack with
    | nil => rw [epsClosureGo] at hx; exact hv x hx
    | cons s stack =>
      simp only [epsClosureGo] at hx
      have hPs : P s := hst s (List.mem_cons_self s stack)
      have hst' : ∀ v ∈ stack, P v := fun v hv' => hst v (List.mem_cons_of_mem s hv')
      by_cases hs : s < nfa.length
      · by_cases hk : (nfa.getD s nfaAccept).kind = NfaKind.epsilon
        · rw [if_pos hs, if_pos hk] at hx
          have h1 := insStep_pred (v := (nfa.getD s nfaAccept).next1) hv hst'
            (fun hne => hP s _ hPs ⟨hs, hk, Or.inl rfl, hne⟩)
          have h2 := insStep_pred (v := (nfa.getD s nfaAccept).next2) h1.1 h1.2
            (fun hne => hP s _ hPs ⟨hs, hk, Or.inr rfl, hne⟩)
          exact ih _ _ h2.1 h2.2 x hx
        · rw [if_pos hs, if_neg hk] at hx
          exact ih _ _ hv hst' x hx
      · rw [if_neg hs] at hx
        exact ih _ _ hv hst' x hx

theorem len_le_card {l base : List Nat} (hnd : l.Nodup) (hsub : ∀ x ∈ l, x ∈ base) :
    l.length ≤ base.toFinset.card := by
  calc l.length = l.toFinset.card := (List.toFinset_card_of_nodup hnd).symm
    _ ≤ base.toFinset.card :=
      Finset.card_le_card (fun x hx => List.mem_toFinset.mpr (hsub x (List.mem_toFinset.mp hx)))


theorem insStep_fst_mem {visited stack : List Nat} {v : Nat} (x : Nat) :
    x ∈ (insStep visited stack v).1 ↔
      x ∈ visited ∨ (x = v ∧ v ≠ noTransition ∧ v ∉ visited) := by
  by_cases hc : v ≠ noTransition ∧ v ∉ visited
  · rw [insStep, if_pos hc]
    constructor
    · intro h
      rcases List.mem_append.mp h with h | h
      · exact Or.inl h
      · rw [List.mem_singleton] at h
        exact Or.inr ⟨h, hc.1, hc.2⟩
    · rintro (h | ⟨rfl, -, -⟩)
      · exact List.mem_append_left _ h
      · exact List.mem_append_right _ (List.mem_singleton_self x)
  · rw [insStep, if_neg hc]
    constructor
    · exact Or.inl
    · rintro (h | ⟨rfl, h2, h3⟩)
      · exact h
      · exact absurd ⟨h2, h3⟩ hc

theorem insStep_new_mem {visited stack : List Nat} {v : Nat} (hne : v ≠ noTransition) :
    v ∈ (insStep visited stack v).1 := by
  by_cases hc : v ≠ noTransition ∧ v ∉ visited
  · rw [insStep, if_pos hc]
    exact List.mem_append_right _ (List.mem_singleton_self v)
  · rw [insStep, if_neg hc]
    rcases not_and_or.mp hc with h | h
    · exact absurd hne h
    · exact not_not.mp h

theorem insStep_stack_sub {visited stack : List Nat} {v x : Nat} (h : x ∈ stack) :
    x ∈ (insStep visited stack v).2 := by
  unfold insStep; split
  · exact List.mem_cons_of_mem _ h
  · exact h

theorem insStep_snd_mem {visited stack : List Nat} {v : Nat} (x : Nat) :
    x ∈ (insStep visited stack v).2 ↔
      x ∈ stack ∨ (x = v ∧ v ≠ noTransition ∧ v ∉ visited) := by
  by_cases hc : v ≠ noTransition ∧ v ∉ visited
  · rw [insStep, if_pos hc]
    constructor
    · intro h
      rcases List.mem_cons.mp h with h | h
      · exact Or.inr ⟨h, hc.1, hc.2⟩
      · exact Or.inl h
    · rintro (h | ⟨rfl, -, -⟩)
      · exact List.mem_cons_of_mem _ h
      · exact List.mem_cons_self _ _
  · rw [insStep, if_neg hc]
    constructor
    · exact Or.inl
    · rintro (h | ⟨rfl, h2, h3⟩)
      · exact h
      · exact absurd ⟨h2, h3⟩ hc

theorem insStep_sub {visited stack : List Nat} {v : Nat}
    (h : ∀ x ∈ stack, x ∈ visited) :
    ∀ x ∈ (insStep visited stack v).2, x ∈ (insStep visited stack v).1 := by
  intro x hx
  rcases (insStep_snd_mem x).mp hx with hx | hx
  · exact insStep_visited_sub (h x hx)
  · exact (insStep_fst_mem x).mpr (Or.inr hx)

theorem insStep_inb {visited stack : List Nat} {v : Nat} {base : List Nat}
    (h : ∀ x ∈ visited, x ∈ base) (hv : v ≠ noTransition → v ∈ base) :
    ∀ x ∈ (insStep visited stack v).1, x ∈ base := by
  intro x hx
  rcases (insStep_fst_mem x).mp hx with hx | ⟨rfl, hne, -⟩
  · exact h x hx
  · exact hv hne

theorem insStep_measure {visited stack : List Nat} {v : Nat} {B : Nat}
    (hvB : (insStep visited stack v).1.length ≤ B) :
    (insStep visited stack v).2.length + 2 * (B - (insStep visited stack v).1.length) ≤
      stack.length + 2 * (B - visited.length) := by
  by_cases hc : v ≠ noTransition ∧ v ∉ visited
  · rw [insStep, if_pos hc] at hvB ⊢
    simp only [List.length_cons, List.length_append, List.length_singleton] at hvB ⊢
    omega
  · rw [insStep, if_neg hc]

theorem epsGo_closed (nfa : List NfaState) (base : List Nat)
    (hbase : ∀ a b, EpsStepR nfa a b → b ∈ base) :
    ∀ fuel visited stack, visited.Nodup →
      (∀ v ∈ stack, v ∈ visited) → (∀ v ∈ visited, v ∈ base) →
      (∀ v ∈ visited, v ∈ stack ∨ ∀ w, EpsStepR nfa v w → w ∈ visited) →
      stack.length + 2 * (base.toFinset.card - visited.length) < fuel →
      ∀ v ∈ epsClosureGo nfa fuel visited stack, ∀ w, EpsStepR nfa v w →
        w ∈ epsClosureGo nfa fuel visited stack := by
  intro fuel
  induction fuel with
  | zero =>
    intro visited stack _ _ _ _ hf
    exact absurd hf (Nat.not_lt_zero _)
  | succ fuel ih =>
    intro visited stack hnd hsub hinb hcl hf
    cases stack with
    | nil =>
      simp only [epsClosureGo]
      intro v hv w hw
      rcases hcl v hv with h | h
      · exact absurd h (List.not_mem_nil v)
      · exact h w hw
    | cons s stack =>
      have hsub' : ∀ v ∈ stack, v ∈ visited :=
        fun v hv => hsub v (List.mem_cons_of_mem s hv)
      have hsV : s ∈ visited := hsub s (List.mem_cons_self s stack)
      simp only [epsClosureGo]
      by_cases hs : s < nfa.length
      · by_cases hk : (nfa.getD s nfaAccept).kind = NfaKind.epsilon
        · rw [if_pos hs, if_pos hk]
          have hb1 : (nfa.getD s nfaAccept).next1 ≠ noTransition →
              (nfa.getD s nfaAccept).next1 ∈ base :=
            fun hne => hbase s _ ⟨hs, hk, Or.inl rfl, hne⟩
          have hb2 : (nfa.getD s nfaAccept).next2 ≠ noTransition →
              (nfa.getD s nfaAccept).next2 ∈ base :=
            fun hne => hbase s _ ⟨hs, hk, Or.inr rfl, hne⟩
          have hnd1 : (insStep visited stack (nfa.getD s nfaAccept).next1).1.Nodup :=
            insStep_nodup hnd
          have hnd2 : (insStep (insStep visited stack (nfa.getD s nfaAccept).next1).1
              (insStep visited stack (nfa.getD s nfaAccept).next1).2
              (nfa.getD s nfaAccept).next2).1.Nodup :=
            insStep_nodup hnd1
          have hsub1 := insStep_sub (v := (nfa.getD s nfaAccept).next1) hsub'
          have hsub2 := insStep_sub (v := (nfa.getD s nfaAccept).next2) hsub1
          have hinb1 : ∀ x ∈ (insStep visited stack (nfa.getD s nfaAccept).next1).1,
              x ∈ base :=
            insStep_inb hinb hb1
          have hinb2 : ∀ x ∈ (insStep (insStep visited stack (nfa.getD s nfaAccept).next1).1
              (insStep visited stack (nfa.getD s nfaAccept).next1).2
              (nfa.getD s nfaAccept).next2).1, x ∈ base :=
            insStep_inb hinb1 hb2
          have hcl2 : ∀ v ∈ (insStep (insStep visited stack (nfa.getD s nfaAccept).next1).1
              (insStep visited stack (nfa.getD s nfaAccept).next1).2
              (nfa.getD s nfaAccept).next2).1,
              v ∈ (insStep (insStep visited stack (nfa.getD s nfaAccept).next1).1
                (insStep visited stack (nfa.getD s nfaAccept).next1).2
                (nfa.getD s nfaAccept).next2).2 ∨
              ∀ w, EpsStepR nfa v w →
                w ∈ (insStep (insStep visited stack (nfa.getD s nfaAccept).next1).1
                  (insStep visited stack (nfa.getD s nfaAccept).next1).2
                  (nfa.getD s nfaAccept).next2).1 := by
            intro v hv
            by_cases hvs : v = s
            · subst hvs
              refine Or.inr (fun w hw => ?_)
              obtain ⟨-, -, hw12, hwne⟩ := hw
              rcases hw12 with rfl | rfl
              · exact insStep_visited_sub (insStep_new_mem hwne)
              · exact insStep_new_mem hwne
            · rcases (insStep_fst_mem v).mp hv with hv1 | hv1
              · rcases (insStep_fst_mem v).mp hv1 with hv0 | hv0
                · rcases hcl v hv0 with hm | hc
                  · rcases List.mem_cons.mp hm with h | h
                    · exact absurd h hvs
                    · exact Or.inl (insStep_stack_sub (insStep_stack_sub h))
                  · exact Or.inr
                      (fun w hw => insStep_visited_sub (insStep_visited_sub (hc w hw)))
                · exact Or.inl (insStep_stack_sub ((insStep_snd_mem v).mpr (Or.inr hv0)))
              · exact Or.inl ((insStep_snd_mem v).mpr (Or.inr hv1))
          have hvB1 : (insStep visited stack (nfa.getD s nfaAccept).next1).1.length ≤
              base.toFinset.card := len_le_card hnd1 hinb1
          have hvB2 : (insStep (insStep visited stack (nfa.getD s nfaAccept).next1).1
              (insStep visited stack (nfa.getD s nfaAccept).next1).2
              (nfa.getD s nfaAccept).next2).1.length ≤ base.toFinset.card :=
            len_le_card hnd2 hinb2
          have hm1 : (insStep visited stack (nfa.getD s nfaAccept).next1).2.length +
              2 * (base.toFinset.card -
                (insStep visited stack (nfa.getD s nfaAccept).next1).1.length) ≤
              stack.length + 2 * (base.toFinset.card - visited.length) :=
            insStep_measure hvB1
          have hm2 := insStep_measure
            (v := (nfa.getD s nfaAccept).next2) hvB2
          refine ih _ _ hnd2 hsub2 hinb2 hcl2 ?_
          simp only [List.length_cons] at hf
          omega
        · rw [if_pos hs, if_neg hk]
          have hcl' : ∀ v ∈ visited, v ∈ stack ∨ ∀ w, EpsStepR nfa v w → w ∈ visited := by
            intro v hv
            by_cases hvs : v = s
            · subst hvs
              exact Or.inr (fun w hw => absurd hw.2.1 hk)
            · rcases hcl v hv with hm | hc
              · rcases List.mem_cons.mp hm with h | h
                · exact absurd h hvs
                · exact Or.inl h
              · exact Or.inr hc
          refine ih _ _ hnd hsub' hinb hcl' ?_
          simp only [List.length_cons] at hf
          omega
      · rw [if_neg hs]
        have hcl' : ∀ v ∈ visited, v ∈ stack ∨ ∀ w, EpsStepR nfa v w → w ∈ visited := by
          intro v hv
          by_cases hvs : v = s
          · subst hvs
            exact Or.inr (fun w hw => absurd hw.1 hs)
          · rcases hcl v hv with hm | hc
            · rcases List.mem_cons.mp hm with h | h
              · exact absurd h hvs
              · exact Or.inl h
            · exact Or.inr hc
        refine ih _ _ hnd hsub' hinb hcl' ?_
        simp only [List.length_cons] at hf
        omega


/-- Membership in `epsilon_closure`: exactly the epsilon-reachable states.
The fuel `3|init| + 4|nfa| + 1` dominates the DFS: each pop is paid for by
the initial stack or by an insertion, and insertions are bounded by the
distinct values of `epsBase`. -/
theorem epsClosure_mem (nfa : List NfaState) (init : List Nat) (hnd : init.Nodup)
    (x : Nat) : x ∈ epsClosure nfa init ↔ ∃ s ∈ init, EpsReach nfa s x := by
  constructor
  · intro hx
    refine epsGo_sound nfa (fun y => ∃ s ∈ init, EpsReach nfa s y) ?_ _ init init ?_ ?_ x hx
    · rintro a b ⟨s, hs, hr⟩ hstep
      exact ⟨s, hs, hr.tail hstep⟩
    · exact fun v hv => ⟨v, hv, Relation.ReflTransGen.refl⟩
    · exact fun v hv => ⟨v, hv, Relation.ReflTransGen.refl⟩
  · rintro ⟨s, hs, hr⟩
    have hfuel : init.length + 2 * ((epsBase nfa init).toFinset.card - init.length) <
        3 * init.length + 4 * nfa.length + 1 := by
      have hcard : (epsBase nfa init).toFinset.card ≤ (epsBase nfa init).length :=
        List.toFinset_card_le _
      have hlen : (epsBase nfa init).length = init.length + (nfa.length + nfa.length) := by
        simp [epsBase]
      omega
    unfold epsClosure
    induction hr with
    | refl => exact epsGo_mono nfa _ _ _ _ hs
    | tail hab hbc ih =>
      exact epsGo_closed nfa (epsBase nfa init) (epsStep_mem_base nfa init) _ init init
        hnd (fun v hv => hv) (fun v hv => List.mem_append_left _ hv)
        (fun v hv => Or.inl hv) hfuel _ ih _ hbc

/-- `epsilon_closure` returns a duplicate-free list whenever its input is
duplicate-free (it models the C++ `unordered_set`). -/
theorem epsClosure_nodup (nfa : List NfaState) (init : List Nat) (hnd : init.Nodup) :
    (epsClosure nfa init).Nodup :=
  epsGo_nodup nfa _ _ _ hnd


/-- Two subset lists carry the same set of NFA states.  This is the
relation induced by reading out a C++ `unordered_set` in two different
iteration orders. -/
def SameSet (a b : List Nat) : Prop := (∀ x ∈ a, x ∈ b) ∧ (∀ x ∈ b, x ∈ a)

instance (a b : List Nat) : Decidable (SameSet a b) := by
  unfold SameSet; exact inferInstance

theorem SameSet.mem_iff {a b : List Nat} (h : SameSet a b) (x : Nat) : x ∈ a ↔ x ∈ b :=
  ⟨fun hx => h.1 x hx, fun hx => h.2 x hx⟩

theorem SameSet.symm {a b : List Nat} (h : SameSet a b) : SameSet b a := ⟨h.2, h.1⟩

/-- `set_to_key` cancels the iteration order: duplicate-free lists with the
same members have the same canonical key. -/
theorem setKey_eq {a b : List Nat} (ha : a.Nodup) (hb : b.Nodup) (h : SameSet a b) :
    setKey a = setKey b := by
  have hperm : a.Perm b := (List.perm_ext_iff_of_nodup ha hb).mpr (fun x => h.mem_iff x)
  exact List.eq_of_perm_of_sorted
    ((List.perm_insertionSort _ a).trans (hperm.trans (List.perm_insertionSort _ b).symm))
    (List.sorted_insertionSort _ a) (List.sorted_insertionSort _ b)

theorem moveSetGo_mem (nfa : List NfaState) (c : Nat) :
    ∀ cur acc x, x ∈ moveSetGo nfa c cur acc ↔
      x ∈ acc ∨ ∃ s ∈ cur, moveTarget nfa c s = some x := by
  intro cur
  induction cur with
  | nil => intro acc x; simp [moveSetGo]
  | cons s rest ih =>
    intro acc x
    simp only [moveSetGo]
    split
    next y hm =>
      by_cases hy : y ∈ acc
      · rw [if_pos hy, ih]
        simp only [List.exists_mem_cons_iff, hm, Option.some_inj]
        constructor
        · rintro (h | h)
          · exact Or.inl h
          · exact Or.inr (Or.inr h)
        · rintro (h | h | h)
          · exact Or.inl h
          · exact Or.inl (h ▸ hy)
          · exact Or.inr h
      · rw [if_neg hy, ih]
        simp only [List.exists_mem_cons_iff, hm, Option.some_inj, List.mem_append,
          List.mem_singleton]
        constructor
        · rintro ((h | h) | h)
          · exact Or.inl h
          · exact Or.inr (Or.inl h.symm)
          · exact Or.inr (Or.inr h)
        · rintro (h | h | h)
          · exact Or.inl (Or.inl h)
          · exact Or.inl (Or.inr h.symm)
          · exact Or.inr h
    next hm =>
      rw [ih]
      simp only [List.exists_mem_cons_iff, hm]
      constructor
      · rintro (h | h)
        · exact Or.inl h
        · exact Or.inr (Or.inr h)
      · rintro (h | h | h)
        · exact Or.inl h
        · exact Option.noConfusion h
        · exact Or.inr h

theorem moveSetGo_nodup (nfa : List NfaState) (c : Nat) :
    ∀ cur acc, acc.Nodup → (moveSetGo nfa c cur acc).Nodup := by
  intro cur
  induction cur with
  | nil => intro acc h; simpa [moveSetGo] using h
  | cons s rest ih =>
    intro acc h
    simp only [moveSetGo]
    split
    next y hm =>
      by_cases hy : y ∈ acc
      · rw [if_pos hy]; exact ih acc h
      · rw [if_neg hy]
        exact ih _ (by simpa [List.nodup_append] using ⟨h, hy⟩)
    next hm => exact ih acc h

theorem moveSet_sameSet {nfa : List NfaState} {c : Nat} {cur₁ cur₂ : List Nat}
    (h : SameSet cur₁ cur₂) :
    SameSet (moveSetGo nfa c cur₁ []) (moveSetGo nfa c cur₂ []) := by
  constructor <;> intro x hx <;> rw [moveSetGo_mem] at hx ⊢ <;>
    rcases hx with hx | ⟨s, hs, hm⟩
  · cases hx
  · exact Or.inr ⟨s, h.1 s hs, hm⟩
  · cases hx
  · exact Or.inr ⟨s, h.2 s hs, hm⟩

theorem sameSet_isEmpty {a b : List Nat} (h : SameSet a b) : a.isEmpty = b.isEmpty := by
  cases ha : a with
  | nil =>
    have : b = [] := List.eq_nil_iff_forall_not_mem.mpr
      (fun x hx => by have := h.2 x hx; rw [ha] at this; exact List.not_mem_nil x this)
    rw [this]
  | cons y ys =>
    have hy : y ∈ b := h.1 y (by rw [ha]; exact List.mem_cons_self y ys)
    cases hb : b with
    | nil => rw [hb] at hy; exact absurd hy (List.not_mem_nil y)
    | cons z zs => rfl

theorem hasAcceptState_congr {nfa : List NfaState} {a b : List Nat} (h : SameSet a b) :
    hasAcceptState nfa a = hasAcceptState nfa b := by
  rw [Bool.eq_iff_iff]
  simp only [hasAcceptState, List.any_eq_true]
  constructor
  · rintro ⟨s, hs, hp⟩; exact ⟨s, h.1 s hs, hp⟩
  · rintro ⟨s, hs, hp⟩; exact ⟨s, h.2 s hs, hp⟩

theorem epsClosure_sameSet {nfa : List NfaState} {a b : List Nat}
    (ha : a.Nodup) (hb : b.Nodup) (h : SameSet a b) :
    SameSet (epsClosure nfa a) (epsClosure nfa b) := by
  constructor <;> intro x hx
  · rw [epsClosure_mem nfa a ha] at hx
    rw [epsClosure_mem nfa b hb]
    obtain ⟨s, hs, hr⟩ := hx
    exact ⟨s, h.1 s hs, hr⟩
  · rw [epsClosure_mem nfa b hb] at hx
    rw [epsClosure_mem nfa a ha]
    obtain ⟨s, hs, hr⟩ := hx
    exact ⟨s, h.2 s hs, hr⟩


/-- The relation between two readouts of one queued subset produced by
different container iteration orders. -/
def PendRel (a b : List Nat) : Prop := SameSet a b ∧ a.Nodup ∧ b.Nodup

/-- Two `build_dfa` loop states that agree except for the element order
inside each queued subset. -/
def StEquiv (s1 s2 : BuildSt) : Prop :=
  s1.states = s2.states ∧ s1.keyMap = s2.keyMap ∧
    List.Forall₂ PendRel s1.pending s2.pending

theorem processChar_congr {nfa : List NfaState} {idx : Nat} {cur₁ cur₂ : List Nat}
    (hc : PendRel cur₁ cur₂) {st₁ st₂ : BuildSt} (he : StEquiv st₁ st₂) (c : Nat) :
    StEquiv (processChar nfa idx cur₁ st₁ c) (processChar nfa idx cur₂ st₂ c) := by
  obtain ⟨hss, hnd₁, hnd₂⟩ := hc
  obtain ⟨hst, hkm, hpd⟩ := he
  have hns : SameSet (moveSetGo nfa c cur₁ []) (moveSetGo nfa c cur₂ []) :=
    moveSet_sameSet hss
  have hnsd₁ : (moveSetGo nfa c cur₁ []).Nodup := moveSetGo_nodup nfa c cur₁ [] List.nodup_nil
  have hnsd₂ : (moveSetGo nfa c cur₂ []).Nodup := moveSetGo_nodup nfa c cur₂ [] List.nodup_nil
  have hemp : (moveSetGo nfa c cur₁ []).isEmpty = (moveSetGo nfa c cur₂ []).isEmpty :=
    sameSet_isEmpty hns
  simp only [processChar]
  by_cases hE : (moveSetGo nfa c cur₁ []).isEmpty = true
  · rw [if_pos hE, if_pos (hemp ▸ hE)]
    exact ⟨hst, hkm, hpd⟩
  · rw [if_neg hE, if_neg (hemp ▸ hE)]
    have htset : SameSet (epsClosure nfa (moveSetGo nfa c cur₁ []))
        (epsClosure nfa (moveSetGo nfa c cur₂ [])) :=
      epsClosure_sameSet hnsd₁ hnsd₂ hns
    have htnd₁ : (epsClosure nfa (moveSetGo nfa c cur₁ [])).Nodup :=
      epsClosure_nodup nfa _ hnsd₁
    have htnd₂ : (epsClosure nfa (moveSetGo nfa c cur₂ [])).Nodup :=
      epsClosure_nodup nfa _ hnsd₂
    have hkey : setKey (epsClosure nfa (moveSetGo nfa c cur₁ [])) =
        setKey (epsClosure nfa (moveSetGo nfa c cur₂ [])) :=
      setKey_eq htnd₁ htnd₂ htset
    have hacc : hasAcceptState nfa (epsClosure nfa (moveSetGo nfa c cur₁ [])) =
        hasAcceptState nfa (epsClosure nfa (moveSetGo nfa c cur₂ [])) :=
      hasAcceptState_congr htset
    rw [hst, hkm, hkey, hacc]
    cases hfk : findKey st₂.keyMap (setKey (epsClosure nfa (moveSetGo nfa c cur₂ []))) with
    | some i => exact ⟨rfl, rfl, hpd⟩
    | none =>
      exact ⟨rfl, rfl, List.rel_append hpd
        (List.Forall₂.cons ⟨htset, htnd₁, htnd₂⟩ List.Forall₂.nil)⟩

theorem foldChars_congr {nfa : List NfaState} {idx : Nat} {cur₁ cur₂ : List Nat}
    (hc : PendRel cur₁ cur₂) :
    ∀ (cs : List Nat) {st₁ st₂ : BuildSt}, StEquiv st₁ st₂ →
      StEquiv (cs.foldl (processChar nfa idx cur₁) st₁)
        (cs.foldl (processChar nfa idx cur₂) st₂) := by
  intro cs
  induction cs with
  | nil => intro st₁ st₂ h; exact h
  | cons c cs ih =>
    intro st₁ st₂ h
    simp only [List.foldl_cons]
    exact ih (processChar_congr hc h c)

/-- Claim C8: the subset construction is deterministic — its result does
not depend on the iteration order of the hash containers.  The only
run-to-run variation in the C++ `build_dfa` is the order in which the
`unordered_set` subsets are read out; two runs of the worklist loop from
states whose rows and key maps are equal and whose queued subsets are
equal as sets (in any element order) return identical results: the same
success-or-error outcome, and on success the same state count, the same
`is_accept` flag on every state, and identical transition rows.  Hence
compiling the same regex source twice produces identical compiled DFAs. -/
theorem buildDfaLoop_order_independent (nfa : List NfaState) (cap : Nat) :
    ∀ fuel st₁ st₂, StEquiv st₁ st₂ →
      buildDfaLoop nfa cap fuel st₁ = buildDfaLoop nfa cap fuel st₂ := by
  intro fuel
  induction fuel with
  | zero => intro st₁ st₂ _; rfl
  | succ fuel ih =>
    intro st₁ st₂ h
    obtain ⟨hst, hkm, hpd⟩ := h
    simp only [buildDfaLoop]
    cases hp₁ : st₁.pending with
    | nil =>
      have hp₂ : st₂.pending = [] := List.forall₂_nil_left_iff.mp (hp₁ ▸ hpd)
      rw [hp₂, hst]
    | cons cur₁ rest₁ =>
      obtain ⟨cur₂, rest₂, hcr, hrest, hp₂⟩ := List.forall₂_cons_left_iff.mp (hp₁ ▸ hpd)
      rw [hp₂]
      show (if cap < st₁.states.length then Except.error limitErr
          else buildDfaLoop nfa cap fuel
            ((List.range 128).foldl
              (processChar nfa ((findKey st₁.keyMap (setKey cur₁)).getD 0) cur₁)
              ⟨st₁.states, st₁.keyMap, rest₁⟩)) =
        (if cap < st₂.states.length then Except.error limitErr
          else buildDfaLoop nfa cap fuel
            ((List.range 128).foldl
              (processChar nfa ((findKey st₂.keyMap (setKey cur₂)).getD 0) cur₂)
              ⟨st₂.states, st₂.keyMap, rest₂⟩))
      rw [hst, hkm, setKey_eq hcr.2.1 hcr.2.2 hcr.1]
      by_cases hcap : cap < st₂.states.length
      · rw [if_pos hcap, if_pos hcap]
      · rw [if_neg hcap, if_neg hcap]
        have hse : StEquiv ⟨st₂.states, st₂.keyMap, rest₁⟩ ⟨st₂.states, st₂.keyMap, rest₂⟩ :=
          ⟨rfl, rfl, hrest⟩
        exact ih _ _ (foldChars_congr hcr _ hse)

/-- Witness for C8: on the concrete NFA `nfaW`, running the worklist loop
with the queued subset listed in its two element orders gives identical
results. -/
theorem buildDfaLoop_order_independent_witness :
    buildDfaLoop nfaW 10000 5 ⟨[dfaStateNew], [([0, 1], 0)], [[0, 1]]⟩ =
      buildDfaLoop nfaW 10000 5 ⟨[dfaStateNew], [([0, 1], 0)], [[1, 0]]⟩ :=
  buildDfaLoop_order_independent nfaW 10000 5 _ _
    ⟨rfl, rfl, List.Forall₂.cons ⟨⟨by decide, by decide⟩, by decide, by decide⟩
      List.Forall₂.nil⟩


end KmpLib
